import Mathlib

/-!
Verification development for the `irreptables` module (file
`src/irreptables/__init__.py`) of the IrRep repository.

The Python source is shallowly embedded below.  Conventions:

* A Python text line is a Lean `String`; a file is a `List String` of its
  lines (the source's reversed-stack consumption `lines[-1::-1]` + `pop()`
  is equivalent to front-to-back traversal of the original line order, and
  is modelled that way).
* Python floats parsed from table tokens are modelled as exact rationals
  (`ℚ`): every token in the tables is a plain decimal literal, represented
  exactly.
* Complex values produced as `mag * exp(i*pi*phase)` are kept symbolically
  as `(mag, phase)` pairs of rationals; the semantic map into `ℂ` is given
  by noncomputable functions (`expiPi`, `constToC`, `mCharCall`) used only
  in theorem statements.
* Fallible Python code is modelled with `Option`/`Except PyErr`; the
  exception *kind* is tracked wherever the source discriminates kinds
  (the legacy irrep scan catches `EOFError`/`IndexError` only).
-/

/-- Kinds of Python exceptions that the source can raise or catch.
(`EOFError` is listed in the source's `except` clause but `file.readline`
never raises it, so it has no constructor here.) -/
inductive PyErr where
  | valueError
  | indexError
  | assertionError
  | runtimeError
  | attributeError
  deriving DecidableEq, Repr

deriving instance DecidableEq for Except

/-- Build a `String` from its character list.  All text manipulation
below is done on character lists (the `String.data` field), because the
corresponding core `String` functions are compiled by well-founded
recursion and would not evaluate inside proofs. -/
def mkStr (cs : List Char) : String := ⟨cs⟩

/-- Split a character list at every character satisfying `p`, keeping
(possibly empty) segments — the semantics of Python `str.split(sep)` for
a one-character separator and the segment backbone of whitespace
splitting. -/
def splitCharsAux (p : Char → Bool) : List Char → List Char → List (List Char)
  | [], cur => [cur.reverse]
  | c :: cs, cur =>
    if p c then cur.reverse :: splitCharsAux p cs []
    else splitCharsAux p cs (c :: cur)

/-- Python `s.split(c)` for a single-character separator `c`. -/
def splitOnChar (c : Char) (s : String) : List String :=
  (splitCharsAux (fun d => d = c) s.data []).map mkStr

/-- Python `str.split()` with no argument: split on runs of whitespace,
ignoring leading/trailing whitespace. -/
def pySplit (s : String) : List String :=
  ((splitCharsAux Char.isWhitespace s.data []).map mkStr).filter (fun t => t ≠ "")

/-- Python `str.strip()` on a character list. -/
def trimChars (cs : List Char) : List Char :=
  ((cs.dropWhile Char.isWhitespace).reverse.dropWhile Char.isWhitespace).reverse

/-- Python `str.strip()`. -/
def pyStrip (s : String) : String := mkStr (trimChars s.data)

/-- Python `str.lower()`. -/
def pyLower (s : String) : String := mkStr (s.data.map Char.toLower)

/-- Numeric value of a digit-character list. -/
def digitsOf (cs : List Char) : ℕ :=
  cs.foldl (fun n c => 10 * n + (c.toNat - 48)) 0

/-- Value of a nonempty all-digit character list, `none` otherwise. -/
def digitsVal? (cs : List Char) : Option ℕ :=
  if cs ≠ [] && cs.all Char.isDigit then some (digitsOf cs) else none

/-- Python `int(token)`: optional sign, decimal digits, surrounding
whitespace tolerated. -/
def pyInt (s : String) : Option ℤ :=
  match trimChars s.data with
  | '-' :: cs => (digitsVal? cs).map (fun n => -(n : ℤ))
  | '+' :: cs => (digitsVal? cs).map (fun n => (n : ℤ))
  | cs => (digitsVal? cs).map (fun n => (n : ℤ))

/-- Python `float(token)` restricted to unsigned plain decimal literals
(digits, optional fractional part), which is the only form occurring in
the tables; the result is the exact rational value. -/
def parseUnsignedRat (cs : List Char) : Option ℚ :=
  match splitCharsAux (fun c => c = '.') cs [] with
  | [a] => (digitsVal? a).map (fun n => (n : ℚ))
  | [a, b] =>
      if a.all Char.isDigit && b.all Char.isDigit && !(a = [] && b = []) then
        some ((digitsOf a : ℚ) + (digitsOf b : ℚ) / ((10 : ℚ) ^ b.length))
      else none
  | _ => none

/-- Python `float(token)` (see `parseUnsignedRat`). -/
def parseRat (s : String) : Option ℚ :=
  match trimChars s.data with
  | '-' :: cs => (parseUnsignedRat cs).map (fun q => -q)
  | '+' :: cs => parseUnsignedRat cs
  | cs => parseUnsignedRat cs

/-- Decimal digit characters of `n`, most significant first (`fuel`-bounded
division loop; `fuel = n + 1` always suffices). -/
def natToCharsAux : (fuel n : ℕ) → List Char → List Char
  | 0, _, acc => acc
  | fuel + 1, n, acc =>
    let d := Char.ofNat (48 + n % 10)
    if n < 10 then d :: acc
    else natToCharsAux fuel (n / 10) (d :: acc)

/-- Decimal digit characters of `n`. -/
def natToChars (n : ℕ) : List Char := natToCharsAux (n + 1) n []

/-- Python `str(n)` for a natural number. -/
def natToStr (n : ℕ) : String := mkStr (natToChars n)

/-- Decimal rendering of `m / 10^k` (`m : ℕ`), in Python `str(float)`
style: an integral value gets a trailing `.0`. -/
def decChars (m k : ℕ) : List Char :=
  if k = 0 then natToChars m ++ ['.', '0']
  else
    let ds := natToChars m
    let ds := List.replicate (k + 1 - ds.length) '0' ++ ds
    let n := ds.length
    ds.take (n - k) ++ ['.'] ++ ds.drop (n - k)

/-- Python `str(x)` for a float `x`, for terminating decimals (all values
arising from the tables); modelled exactly on the rational embedding. -/
def ratToStr (q : ℚ) : String :=
  let sgn : List Char := if q < 0 then ['-'] else []
  let a := |q|
  match (List.range 40).find? (fun k => (a * 10 ^ k).den = 1) with
  | some k => mkStr (sgn ++ decChars (a * 10 ^ k).num.toNat k)
  | none => mkStr (sgn ++ natToChars a.num.toNat ++ ['/'] ++ natToChars a.den)

/-- Modelled from the spec: `str2bool` from `irrep.__aux` (not under
`src/`); the spec only uses it to parse the boolean `spinor` header field,
written as Python `str(bool)`, i.e. `True`/`False`. -/
def str2bool (s : String) : Option Bool :=
  if pyStrip s = "True" then some true
  else if pyStrip s = "False" then some false
  else none

/-- Keep the first occurrence of each element, dropping later duplicates
(auxiliary: `seen` accumulates elements already kept). -/
def dedupFirstAux (seen : List ℕ) : List ℕ → List ℕ
  | [] => []
  | a :: l => if a ∈ seen then dedupFirstAux seen l else a :: dedupFirstAux (a :: seen) l

/-- Keep the first occurrence of each element, dropping later duplicates. -/
def dedupFirst (l : List ℕ) : List ℕ :=
  dedupFirstAux [] l

/-- Modelled from the spec: `str2list_space` from `irrep.__aux` (not under
`src/`): parses the space-separated little-group index field of a k-point
line into the stored index collection.  The spec describes the result as a
set of 1-based indices that is nevertheless indexable in stored order
(§4.4 "the KPoint's stored isym order"), so it is modelled as the list of
parsed indices in token order with duplicates removed. -/
def str2list_space (s : String) : Option (List ℕ) :=
  ((pySplit s).mapM (fun (t : String) => digitsVal? (trimChars t.data))).map dedupFirst

/-- `SymopTable`: one symmetry operation.  `R` is the 3×3 integer rotation
(row-major, 9 entries), `t` the translation, and `S` the 2×2 spinor matrix
kept symbolically as four `(magnitude, phase-in-units-of-pi)` pairs in
row-major order (the source stores `mag * exp(1j*pi*phase)`). -/
structure SymopTable where
  R : List ℤ
  t : List ℚ
  S : List (ℚ × ℚ)
  deriving DecidableEq, Repr

/-- Numpy-style broadcasting of an elementwise combination of two 1-d
arrays: lengths must agree or one side must have length 1. -/
def npBroadcast {α β : Type} (xs : List α) (ys : List β) : Option (List (α × β)) :=
  if xs.length = ys.length then some (xs.zip ys)
  else if xs.length = 1 then
    match xs with
    | [x] => some (ys.map (fun y => (x, y)))
    | _ => none
  else if ys.length = 1 then
    match ys with
    | [y] => some (xs.map (fun x => (x, y)))
    | _ => none
  else none

/-- Every other element starting from the head (numpy `l[::2]`). -/
def everyOther {α : Type} : List α → List α
  | [] => []
  | [a] => [a]
  | a :: _ :: rest => a :: everyOther rest

/-- `SymopTable.__init__`, machine encoding (`from_user=False`): tokens
0-8 form `R` (ints), 9-11 form `t` (floats, lenient slice), and from
token 12 on, magnitudes and phases interleave (`numbers[12::2]`,
`numbers[13::2]`); their elementwise product must reshape to 2×2, i.e.
broadcast to exactly 4 entries. -/
def parseSymopMachine (line : String) : Option SymopTable := do
  let numbers := pySplit line
  let rtoks := numbers.take 9
  if rtoks.length ≠ 9 then none
  let R ← rtoks.mapM pyInt
  let t ← ((numbers.drop 9).take 3).mapM parseRat
  let mags ← (everyOther (numbers.drop 12)).mapM parseRat
  let phases ← (everyOther (numbers.drop 13)).mapM parseRat
  let S ← npBroadcast mags phases
  if S.length ≠ 4 then none
  some ⟨R, t, S⟩

/-- `SymopTable.__init__from_user`: tokens 0-8 form `R`, 9-11 form `t`;
if more than 12 tokens are present, tokens 12-15 are the magnitude block
and 16-19 the phase block of `S` (a 2×2 reshape needs exactly 4 products),
otherwise `S` is the 2×2 identity. -/
def parseSymopUser (line : String) : Option SymopTable := do
  let numbers := pySplit line
  let rtoks := numbers.take 9
  if rtoks.length ≠ 9 then none
  let R ← rtoks.mapM pyInt
  let t ← ((numbers.drop 9).take 3).mapM parseRat
  if numbers.length > 12 then
    let mags ← ((numbers.drop 12).take 4).mapM parseRat
    let phases ← ((numbers.drop 16).take 4).mapM parseRat
    let S ← npBroadcast mags phases
    if S.length ≠ 4 then none
    some ⟨R, t, S⟩
  else
    some ⟨R, t, [(1, 0), (0, 0), (0, 0), (1, 0)]⟩

/-- `KPoint`: label, direct coordinates, and the little-group index
collection (see `str2list_space` for the order convention). -/
structure KPoint where
  name : String
  k : List ℚ
  isym : List ℕ
  deriving DecidableEq, Repr

/-- `KPoint.__init__` from a line: colon-separated fields
`"kpoint <name>" : "<k1> <k2> <k3>" : "<isym list>"`; a missing `kpoint`
marker raises (`ValueError`), any other malformed field also raises —
callers only distinguish success from failure, hence `Option`. -/
def parseKPoint (line : String) : Option KPoint := do
  let parts := splitOnChar ':' line
  match pySplit (parts.headD "") with
  | [] => none
  | marker :: rest =>
    if marker ≠ "kpoint" then none
    else
      match rest with
      | [] => none
      | nm :: _ =>
        match parts[1]? with
        | none => none
        | some p1 => do
          let ks ← (pySplit p1).mapM parseRat
          match parts[2]? with
          | none => none
          | some p2 => do
            let is ← str2list_space p2
            some ⟨nm, ks, is⟩

/-- `KPoint.__eq__`: same name, `‖k - k'‖ ≤ 1e-8` (modelled by the exact
squared-norm comparison, equivalent over the embedding; numpy would raise
on length-mismatched coordinate arrays, which the table invariants rule
out, so length mismatch is mapped to `false`), and equal index sets. -/
def kpEq (a b : KPoint) : Bool :=
  a.name = b.name
  && a.k.length = b.k.length
  && decide (((a.k.zip b.k).map (fun p => (p.1 - p.2) ^ 2)).sum ≤ 1 / 10 ^ 16)
  && a.isym.all (fun i => i ∈ b.isym) && b.isym.all (fun i => i ∈ a.isym)

/-- Insert into a sorted list (ascending). -/
def insertSorted (a : ℕ) : List ℕ → List ℕ
  | [] => [a]
  | b :: l => if a ≤ b then a :: b :: l else b :: insertSorted a l

/-- Python `sorted` on a list of naturals. -/
def sortNat (l : List ℕ) : List ℕ := l.foldr insertSorted []

/-- Join character lists with a separator (Python `sep.join`). -/
def joinChars (sep : List Char) : List (List Char) → List Char
  | [] => []
  | [x] => x
  | x :: xs => x ++ sep ++ joinChars sep xs

/-- `KPoint.str`: `"<name> : <k entries> : <sorted isym>"` (the source
format string puts two spaces before the second colon). -/
def KPoint.strLine (kp : KPoint) : String :=
  mkStr (kp.name.data ++ [' ', ':', ' ']
    ++ joinChars [' '] (kp.k.map (fun q => (ratToStr q).data))
    ++ [' ', ' ', ':', ' ']
    ++ joinChars [' '] ((sortNat kp.isym).map natToChars))

/-- A stored irrep character: either a `CharFunction` callable carrying its
full term list `abcde` (each inner list is one diagonal matrix element's
coefficient line: coefficient, then linear exponents for `1, u, v, w`), or
the constant obtained by reducing such a callable at `u=v=w=0`, kept
symbolically as `(coefficient, phase-in-units-of-pi)` terms whose semantic
value is their sum of `c * exp(i*pi*a)`. -/
inductive CharValue where
  | const (terms : List (ℚ × ℚ))
  | func (abcde : List (List ℚ))
  deriving DecidableEq, Repr

/-- `exp(1j * np.pi * x)`. -/
noncomputable def expiPi (x : ℝ) : ℂ :=
  Complex.exp (Complex.I * Real.pi * x)

/-- Semantic complex value of a reduced (constant) character. -/
noncomputable def constToC (terms : List (ℚ × ℚ)) : ℂ :=
  (terms.map (fun t => (t.1 : ℂ) * expiPi (t.2 : ℝ))).sum

/-- The phase argument of one term of `CharFunction.__call__`:
`sum(a * u for a, u in zip(aaa[1:], (1, u, v, w)))` (Python `zip`
truncates at the shorter list). -/
noncomputable def termPhase (tl : List ℚ) (u v w : ℝ) : ℝ :=
  (List.zipWith (fun (a : ℚ) (x : ℝ) => (a : ℝ) * x) tl [1, u, v, w]).sum

/-- `CharFunction.__call__(u, v, w)`: sum over terms of
`aaa[0] * exp(1j*pi*(...))`.  The tables only produce nonempty term
lines wherever a call happens (the reduction step errors out otherwise,
see `reduceTerms`), so the head is total here via `headD`. -/
noncomputable def mCharCall (abcde : List (List ℚ)) (u v w : ℝ) : ℂ :=
  (abcde.map (fun aaa => ((aaa.headD 0 : ℚ) : ℂ) * expiPi (termPhase aaa.tail u v w))).sum

/-- The once-per-irrep reduction `self.characters[isym]()` of a
parameter-free `CharFunction` at the default `u=v=w=0`: term
`c :: rest` contributes `(c, rest[0])` (`zip` truncation makes the
phase `rest.headD 0` exactly); an empty coefficient line makes the
Python call raise `IndexError` on `aaa[0]`. -/
def reduceTerms (abcde : List (List ℚ)) : Except PyErr (List (ℚ × ℚ)) :=
  abcde.mapM (fun aaa =>
    match aaa with
    | [] => .error .indexError
    | c :: rest => .ok (c, rest.headD 0))

/-- One entry of the reduction dict comprehension
`{isym: self.characters[isym]() for isym in self.characters}`: reduce the
slot's `CharFunction` (propagating its `IndexError` on an empty
coefficient line) and store the constant. -/
def reduceChar (p : ℕ × List (List ℚ)) : Except PyErr (ℕ × CharValue) :=
  match reduceTerms p.2 with
  | .error e => .error e
  | .ok ts => .ok (p.1, CharValue.const ts)

/-- `Irrep`: one irreducible representation.  `reality` is an `int` on the
machine path and an inferred `bool` on the user path (Python duck-typing),
modelled as a sum; `hasuvw`/`has_rkmk` are `none` when the corresponding
Python attribute was never assigned (the user constructor assigns
neither). `characters` is the insertion-ordered dict from little-group
index to character. -/
structure Irrep where
  k : List ℚ
  kpname : String
  name : String
  dim : ℤ
  nsym : ℤ
  reality : ℤ ⊕ Bool
  characters : List (ℕ × CharValue)
  hasuvw : Option Bool
  has_rkmk : Option Bool
  deriving DecidableEq, Repr

/-- The character-value block of `Irrep.__init__user`: in the real case
(`len(line[2:]) == nsym`) the amplitudes stand alone (phase 0), otherwise
the phase block `line[2+nsym : 2+2*nsym]` is parsed and multiplied onto
the amplitudes under numpy broadcasting. -/
def userVals (rest : List String) (nsym : ℕ) (amps : List ℚ) :
    Option (List (ℚ × ℚ)) :=
  if decide (rest.length = nsym) then some (amps.map (fun a => (a, (0 : ℚ))))
  else
    (((rest.drop nsym).take nsym).mapM parseRat).bind
      (fun phases => npBroadcast amps phases)

/-- The tail of `Irrep.__init__user` after label and dimension are read:
amplitudes `line[2 : 2+nsym]`, the character values, and the dict keyed by
`k_point.isym[i]` (an out-of-range index raises, hence the final guard). -/
def mkUserIrrep (nmTok : String) (d : ℤ) (rest : List String) (kp : KPoint) :
    Option Irrep :=
  ((rest.take kp.isym.length).mapM parseRat).bind (fun amps =>
    (userVals rest kp.isym.length amps).bind (fun vals =>
      if kp.isym.length ≤ vals.length then
        some { k := kp.k, kpname := kp.name, name := nmTok, dim := d,
               nsym := (kp.isym.length : ℤ),
               reality := .inr (decide (rest.length = kp.isym.length)),
               characters := kp.isym.zip ((vals.take kp.isym.length).map
                 (fun p => CharValue.const [p])),
               hasuvw := none, has_rkmk := none }
      else none))

/-- `Irrep.__init__user`, token stage (the source first does
`line.split()`): tokens are label, dimension, then the character fields;
`nsym = len(k_point.isym)`; `reality` is inferred as
`len(line[2:]) == nsym`; see `userVals` and `mkUserIrrep` for the
character reconstruction.  Any Python exception is caught by the caller,
hence `Option`. -/
def parseIrrepUserTokens (tokens : List String) (kp : KPoint) : Option Irrep :=
  match tokens with
  | [] => none
  | [_] => none
  | nmTok :: dimTok :: rest =>
    (pyInt dimTok).bind (fun d => mkUserIrrep nmTok d rest kp)

/-- `Irrep.__init__user` on a raw line. -/
def parseIrrepUser (line : String) (kp : KPoint) : Option Irrep :=
  parseIrrepUserTokens (pySplit line) kp

/-- `file.readline()` on a list of remaining lines: at end of file Python
returns the empty string. -/
def readline (lines : List String) : String × List String :=
  match lines with
  | [] => ("", [])
  | l :: rest => (l, rest)

/-- Header data of a machine irrep record (line consumed by
`Irrep.__init__` before the per-operation loop), in source order of field
accesses: `k = s[:3]` (floats), `has_rkmk` from `s[3]`, `name = s[4]`,
`kpname = s[7]`, `dim = int(s[5])`, the raw operation count `int(s[6])`
(only its truncated half `nsym` is kept by the source; both are recorded
here, `nsym = cnt.tdiv 2` matching Python `int(int(s[6])/2)`), and
`reality = int(s[8])`. -/
structure MIrrepHeader where
  ks : List ℚ
  has_rkmk : Option Bool
  name : String
  kpname : String
  dim : ℤ
  cnt : ℤ
  reality : ℤ
  deriving DecidableEq, Repr

/-- Parse the machine irrep header line (field accesses in source order;
a short token list raises `IndexError` — the benign end-of-stream signal —
while a failed numeric conversion raises `ValueError`). -/
def parseMIrrepHeader (line : String) : Except PyErr MIrrepHeader := do
  let s := pySplit line
  let ks ←
    match (s.take 3).mapM parseRat with
    | none => .error PyErr.valueError
    | some ks => .ok ks
  let t3 ←
    match s[3]? with
    | none => .error PyErr.indexError
    | some t => .ok t
  let nm ←
    match s[4]? with
    | none => .error PyErr.indexError
    | some t => .ok t
  let kpnm ←
    match s[7]? with
    | none => .error PyErr.indexError
    | some t => .ok t
  let dimTok ←
    match s[5]? with
    | none => .error PyErr.indexError
    | some t => .ok t
  let dim ←
    match pyInt dimTok with
    | none => .error PyErr.valueError
    | some d => .ok d
  let cntTok ←
    match s[6]? with
    | none => .error PyErr.indexError
    | some t => .ok t
  let cnt ←
    match pyInt cntTok with
    | none => .error PyErr.valueError
    | some c => .ok c
  let reTok ←
    match s[8]? with
    | none => .error PyErr.indexError
    | some t => .ok t
  let re ←
    match pyInt reTok with
    | none => .error PyErr.valueError
    | some r => .ok r
  .ok { ks := ks, has_rkmk := if t3 = "1" then some true else none,
        name := nm, kpname := kpnm, dim := dim, cnt := cnt, reality := re }

/-- Inner loop `for j in range(dim)` of the machine character reader for
row `i`: each cell consumes two lines; off-diagonal cells are skipped;
on the diagonal, the first line must be `"1"` (constant) or `"2"`
(parameterized) after stripping — anything else raises `RuntimeError` —
and the second line's floats are appended to `abcde`.  `left` counts the
remaining columns (`dim - j`), making the `range(dim)` loop structural. -/
def readCellsRow (i : ℕ) : (left j : ℕ) → List String → List (List ℚ) → List Bool →
    Except PyErr (List (List ℚ) × List Bool × List String)
  | 0, _, lines, abcde, huv => .ok (abcde, huv, lines)
  | left + 1, j, lines, abcde, huv =>
    let (l1, r1) := readline lines
    let (l2, r2) := readline r1
    if i ≠ j then readCellsRow i left (j + 1) r2 abcde huv
    else
      let f := pyStrip l1
      if f = "1" then
        match (pySplit l2).mapM parseRat with
        | none => .error PyErr.valueError
        | some cs => readCellsRow i left (j + 1) r2 (abcde ++ [cs]) (huv ++ [false])
      else if f = "2" then
        match (pySplit l2).mapM parseRat with
        | none => .error PyErr.valueError
        | some cs => readCellsRow i left (j + 1) r2 (abcde ++ [cs]) (huv ++ [true])
      else .error PyErr.runtimeError

/-- Outer loop `for i in range(dim)` of the machine character reader:
`left` counts the remaining rows, each row running `readCellsRow` over
all `dimN` columns. -/
def readCellsMat (dimN : ℕ) : (left i : ℕ) → List String → List (List ℚ) → List Bool →
    Except PyErr (List (List ℚ) × List Bool × List String)
  | 0, _, lines, abcde, huv => .ok (abcde, huv, lines)
  | left + 1, i, lines, abcde, huv =>
    match readCellsRow i dimN 0 lines abcde huv with
    | .error e => .error e
    | .ok (abcde2, huv2, rest) => readCellsMat dimN left (i + 1) rest abcde2 huv2

/-- The per-operation loop `for isym in range(1, nsym_group + 1)` of
`Irrep.__init__`: each slot line must split into exactly two ints
(`ValueError` otherwise, including at end of stream), the first must equal
the running `isym` (`AssertionError` otherwise); flag 0 skips the slot,
flag 1 reads a `dim × dim` character block, anything else raises
`RuntimeError`.  Only slots with `isym <= nsym_group / 2` are retained in
`characters` (as raw `abcde` term lists at this stage); the returned Bool
is the accumulated `hasuvw` flag. -/
def readSlots (g dimI : ℤ) : (count isym : ℕ) → List String →
    List (ℕ × List (List ℚ)) → Bool →
    Except PyErr (List (ℕ × List (List ℚ)) × Bool × List String)
  | 0, _, lines, chars, huv => .ok (chars, huv, lines)
  | count + 1, isym, lines, chars, huv =>
    let (l, rest) := readline lines
    match (pySplit l).mapM pyInt with
    | none => .error PyErr.valueError
    | some zs =>
      match zs with
      | [ism, issym] =>
        if ism ≠ (isym : ℤ) then .error PyErr.assertionError
        else if issym = 0 then readSlots g dimI count (isym + 1) rest chars huv
        else if issym ≠ 1 then .error PyErr.runtimeError
        else
          match readCellsMat dimI.toNat dimI.toNat 0 rest [] [] with
          | .error e => .error e
          | .ok (abcde, huvList, rest2) =>
            let chars2 := if 2 * (isym : ℤ) ≤ g then chars ++ [(isym, abcde)] else chars
            readSlots g dimI count (isym + 1) rest2 chars2 (huv || huvList.any id)
      | _ => .error PyErr.valueError

/-- `Irrep.__init__` (machine encoding): header line, then the
per-operation slot loop, then — when no diagonal entry anywhere in the
irrep was parameterized — the once-only reduction of every retained
`CharFunction` to its constant value, and finally the terminal
`assert len(self.characters) == self.nsym`. -/
def parseIrrepMachine (nsymGroup : ℤ) (lines : List String) :
    Except PyErr (Irrep × List String) :=
  let (l, rest) := readline lines
  match parseMIrrepHeader l with
  | .error e => .error e
  | .ok hdr =>
    let nsym := Int.tdiv hdr.cnt 2
    match readSlots nsymGroup hdr.dim (nsymGroup.toNat) 1 rest [] false with
    | .error e => .error e
    | .ok (chars, hasuvw, rest2) =>
      let charactersE : Except PyErr (List (ℕ × CharValue)) :=
        if hasuvw then
          .ok (chars.map (fun p => (p.1, CharValue.func p.2)))
        else
          chars.mapM reduceChar
      match charactersE with
      | .error e => .error e
      | .ok characters =>
        if (characters.length : ℤ) = nsym then
          .ok ({ k := hdr.ks, kpname := hdr.kpname, name := hdr.name,
                 dim := hdr.dim, nsym := nsym, reality := .inl hdr.reality,
                 characters := characters, hasuvw := some hasuvw,
                 has_rkmk := hdr.has_rkmk }, rest2)
        else .error PyErr.assertionError

/-- Python `s.startswith("-")`. -/
def startsDash (s : String) : Bool :=
  match s.data with
  | '-' :: _ => true
  | _ => false

/-- `IrrepTable`: the top-level aggregate.  `name` and `nsym` are `Option`
because on the user path the corresponding Python attributes exist only if
the matching header line occurred (`NK` exists only on the legacy path). -/
structure IrrepTable where
  number : ℤ
  spinor : Bool
  name : Option String
  nsym : Option ℤ
  NK : Option ℤ
  symmetries : List SymopTable
  irreps : List Irrep
  deriving DecidableEq, Repr

/-- Read `n` machine symmetry-operation lines
(`[SymopTable(f.readline()) for i in range(self.nsym)]`); any parse
failure propagates out of the legacy loader. -/
def readNSymops : (n : ℕ) → List String → Except PyErr (List SymopTable × List String)
  | 0, lines => .ok ([], lines)
  | n + 1, lines =>
    let (l, rest) := readline lines
    match parseSymopMachine l with
    | none => .error PyErr.valueError
    | some s =>
      match readNSymops n rest with
      | .error e => .error e
      | .ok (ss, rest2) => .ok (s :: ss, rest2)

/-- The legacy irrep scan `while True: self.irreps.append(Irrep(...))`:
an `EOFError`/`IndexError` from a record terminates the scan benignly,
any other exception propagates; a successful record is followed by one
skipped line (`f.readline()`).  Fuel is bounded by the line count (each
successful record consumes at least its header line). -/
def legacyIrrepLoop (g : ℤ) : (fuel : ℕ) → List String → List Irrep →
    Except PyErr (List Irrep)
  | 0, _, _ => .error PyErr.runtimeError
  | fuel + 1, lines, acc =>
    match parseIrrepMachine g lines with
    | .error e => if e = PyErr.indexError then .ok acc else .error e
    | .ok (irr, rest) =>
      let (_, rest2) := readline rest
      legacyIrrepLoop g fuel rest2 (acc ++ [irr])

/-- `IrrepTable.__init__` with `fromUser=False` (legacy/machine path):
header line `"<nsym> <name>"` (exactly two tokens), `nsym` machine
symmetry operations, a literal `"#"` separator (asserted), the integer
`NK`, then the irrep scan; finally the spinor/scalar filter on the irrep
label prefix `"-"`, the halving `nsym = int(nsym/2)` and the truncation
of the symmetry list to the first half. -/
def loadLegacy (SGnumber : ℤ) (spinor : Bool) (lines : List String) :
    Except PyErr IrrepTable := do
  let (l0, rest0) := readline lines
  match pySplit l0 with
  | [nsymTok, nameTok] =>
    (match pyInt nsymTok with
    | none => .error PyErr.valueError
    | some nsymI => do
      match readNSymops nsymI.toNat rest0 with
      | .error e => .error e
      | .ok (symmetries, rest1) =>
        let (lsep, rest2) := readline rest1
        if pyStrip lsep ≠ "#" then .error PyErr.assertionError
        else
          let (lnk, rest3) := readline rest2
          match pyInt lnk with
          | none => .error PyErr.valueError
          | some nk =>
            match legacyIrrepLoop nsymI (rest3.length + 1) rest3 [] with
            | .error e => .error e
            | .ok irreps0 =>
              let irreps :=
                if spinor then irreps0.filter (fun s => startsDash s.name)
                else irreps0.filter (fun s => !(startsDash s.name))
              let nsym2 := Int.tdiv nsymI 2
              .ok { number := SGnumber, spinor := spinor, name := some nameTok,
                    nsym := some nsym2, NK := some nk,
                    symmetries := symmetries.take nsym2.toNat,
                    irreps := irreps })
  | _ => .error PyErr.valueError

/-- The symmetry-reading loop of `IrrepTable.__init__user`
(`while len(self.symmetries) < self.nsym: l = lines.pop() ...`): a line
that fails to parse as a user symmetry operation is skipped (the
`except` around the `SymopTable` constructor), but popping an exhausted
line stack raises an uncaught `IndexError`. -/
def readSymmetries (n : ℤ) : List String → List SymopTable →
    Except PyErr (List SymopTable × List String)
  | lines, acc =>
    if (acc.length : ℤ) < n then
      match lines with
      | [] => .error PyErr.indexError
      | l :: rest =>
        match parseSymopUser l with
        | some s => readSymmetries n rest (acc ++ [s])
        | none => readSymmetries n rest acc
    else .ok (acc, lines)

/-- The header loop of `IrrepTable.__init__user`: pop a line, strip,
split on `"="`, and dispatch on `l[0].lower()`.  The `"SG"` comparison is
transcribed literally from the source (`l[0].lower() == "SG"`): a
lowercased key is compared against an uppercase literal.  On
`"symmetries"` the symmetry loop runs and the header loop breaks
(requiring `self.nsym`, hence `AttributeError` when no `nsym=` line
preceded); if the stream ends without a `symmetries=` line the subsequent
unconditional `self.symmetries` access raises `AttributeError`. -/
def userHeader (SGreq : ℤ) (spinorReq : Bool) :
    List String → Option String → Option ℤ →
    Except PyErr (Option String × Option ℤ × List SymopTable × List String)
  | [], _, _ => .error PyErr.attributeError
  | l :: rest, nm, ns =>
    let parts := splitOnChar '=' (pyStrip l)
    let key := pyLower (parts.headD "")
    if key = "SG" then
      match parts[1]? with
      | none => .error PyErr.indexError
      | some v =>
        match pyInt v with
        | none => .error PyErr.valueError
        | some n =>
          if n = SGreq then userHeader SGreq spinorReq rest nm ns
          else .error PyErr.assertionError
    else if key = "name" then
      match parts[1]? with
      | none => .error PyErr.indexError
      | some v => userHeader SGreq spinorReq rest (some v) ns
    else if key = "nsym" then
      match parts[1]? with
      | none => .error PyErr.indexError
      | some v =>
        match pyInt v with
        | none => .error PyErr.valueError
        | some n => userHeader SGreq spinorReq rest nm (some n)
    else if key = "spinor" then
      match parts[1]? with
      | none => .error PyErr.indexError
      | some v =>
        match str2bool v with
        | none => .error PyErr.valueError
        | some b =>
          if b = spinorReq then userHeader SGreq spinorReq rest nm ns
          else .error PyErr.assertionError
    else if key = "symmetries" then
      match ns with
      | none => .error PyErr.attributeError
      | some n =>
        match readSymmetries n rest [] with
        | .error e => .error e
        | .ok (syms, rest2) => .ok (nm, ns, syms, rest2)
    else userHeader SGreq spinorReq rest nm ns

/-- The k-point/irrep scan of `IrrepTable.__init__user`: each remaining
line is tried as a `KPoint` (updating the current k-point context) and
otherwise as an `Irrep` bound to that context; all per-line exceptions
(including the `NameError` when no k-point has been seen yet) are
swallowed. -/
def kpIrrStep (l : String) (kpCtx : Option KPoint) (acc : List Irrep) :
    Option KPoint × List Irrep :=
  let ls := pyStrip l
  match parseKPoint ls with
  | some kp => (some kp, acc)
  | none =>
    match kpCtx with
    | none => (kpCtx, acc)
    | some kp =>
      match parseIrrepUser ls kp with
      | some irr => (kpCtx, acc ++ [irr])
      | none => (kpCtx, acc)

/-- The k-point/irrep scan of `IrrepTable.__init__user`, iterating
`kpIrrStep` over the remaining lines. -/
def kpIrrLoop : List String → Option KPoint → List Irrep → List Irrep
  | [], _, acc => acc
  | l :: rest, kpCtx, acc =>
    let st := kpIrrStep l kpCtx acc
    kpIrrLoop rest st.1 st.2

/-- `IrrepTable.__init__user`. -/
def loadUser (SG : ℤ) (spinor : Bool) (lines : List String) :
    Except PyErr IrrepTable :=
  match userHeader SG spinor lines none none with
  | .error e => .error e
  | .ok (nm, ns, syms, rest) =>
    .ok { number := SG, spinor := spinor, name := nm, nsym := ns,
          NK := none, symmetries := syms,
          irreps := kpIrrLoop rest none [] }

/-- The reserved sentinel coordinates excluded by `save4user`. -/
def reservedCoords : List ℚ :=
  [123/1000, 313/1000, 1123/1000, 877/1000, 427/1000, 246/1000, 687/1000]

/-- `true` iff none of the k-point's coordinates lies in the reserved
set (`len(set(...).intersection(list(kp.k))) == 0`). -/
def unreserved (ks : List ℚ) : Bool :=
  ks.all (fun x => !(reservedCoords.contains x))

/-- The k-point a qualifying irrep contributes to the `save4user`
dictionary: `KPoint(irr.kpname, irr.k, set(irr.characters.keys()))`. -/
def kpOfIrrep (irr : Irrep) : KPoint :=
  ⟨irr.kpname, irr.k, irr.characters.map (fun p => p.1)⟩

/-- Lookup in the insertion-ordered name-keyed dictionary (Python dict
keys are unique, so first match suffices). -/
def lookupDict : List (String × KPoint) → String → Option KPoint
  | [], _ => none
  | (m, kp) :: rest, n => if m = n then some kp else lookupDict rest n

/-- The k-point collection loop of `save4user`: for each irrep, the
`irr.hasuvw` attribute access (`AttributeError` if absent), then — for
non-parameterized irreps whose coordinates avoid the reserved set — the
name-keyed dictionary update with the equality assertion against an
already-stored k-point of the same name (`assert kpoints[kp.name] == kp`,
whose `KeyError` on a fresh name is caught and leads to insertion). -/
def collectKpoints : List Irrep → List (String × KPoint) →
    Except PyErr (List (String × KPoint))
  | [], dict => .ok dict
  | irr :: rest, dict =>
    match irr.hasuvw with
    | none => .error PyErr.attributeError
    | some true => collectKpoints rest dict
    | some false =>
      let kp := kpOfIrrep irr
      if unreserved kp.k then
        match lookupDict dict kp.name with
        | some kp0 =>
          if kpEq kp0 kp then collectKpoints rest dict
          else .error PyErr.assertionError
        | none => collectKpoints rest (dict ++ [(kp.name, kp)])
      else collectKpoints rest dict

/-- One unit of `save4user` output in the k-point section part of the
file: a `"kpoint ..."` header line or one irrep line. -/
inductive SaveEvent where
  | kpointLine (kp : KPoint)
  | irrepLine (irr : Irrep)
  deriving DecidableEq, Repr

/-- `Irrep.str()` viewed structurally: building the character array and
testing `np.abs(np.imag(ch)).max()` raises `AttributeError` when some
character is still a `CharFunction` callable (object array without an
`imag` attribute) and `ValueError` on an empty character dict (`max` of
an empty array); otherwise the line is produced (its text is irrelevant
to the properties below). -/
def irrStrOk (irr : Irrep) : Except PyErr Unit :=
  if irr.characters = [] then .error PyErr.valueError
  else if irr.characters.any (fun p =>
      match p.2 with
      | CharValue.func _ => true
      | CharValue.const _ => false) then .error PyErr.attributeError
  else .ok ()

/-- The inner write loop of the `save4user` emission phase: write each
matching irrep's line in order, stopping (with events so far kept) when
`Irrep.str()` raises. -/
def writeIrrs : List Irrep → List SaveEvent → List SaveEvent × Option PyErr
  | [], acc2 => (acc2, none)
  | irr :: irrs, acc2 =>
    match irrStrOk irr with
    | .error e => (acc2, some e)
    | .ok _ => writeIrrs irrs (acc2 ++ [SaveEvent.irrepLine irr])

/-- The emission loop of `save4user`: for each stored k-point, its header
line followed by every irrep whose `kpname` matches, in table order;
events already emitted are kept when a later `Irrep.str()` raises. -/
def emitSections (irreps : List Irrep) : List (String × KPoint) →
    List SaveEvent → List SaveEvent × Option PyErr
  | [], acc => (acc, none)
  | (_, kp) :: rest, acc =>
    let matching := irreps.filter (fun irr => irr.kpname = kp.name)
    match writeIrrs matching (acc ++ [SaveEvent.kpointLine kp]) with
    | (acc3, some e) => (acc3, some e)
    | (acc3, none) => emitSections irreps rest acc3

/-- `IrrepTable.save4user`, structurally: the header and symmetry block
writes come first (an `AttributeError` arises immediately when `self.name`
or `self.nsym` was never assigned, as for tables read by the user path
from files without those header lines); then the k-point collection loop;
then the section emission loop.  The result is the ordered list of
k-point-section output events together with the exception, if any, that
aborted the save. -/
def save4user (T : IrrepTable) : List SaveEvent × Option PyErr :=
  if T.name.isNone || T.nsym.isNone then ([], some PyErr.attributeError)
  else
    match collectKpoints T.irreps [] with
    | .error e => ([], some e)
    | .ok dict => emitSections T.irreps dict []

/-! ### Shared helper lemmas -/

theorem mapM_option_nil {α β : Type} (f : α → Option β) :
    ([] : List α).mapM f = some [] := rfl

theorem mapM_option_length {α β : Type} (f : α → Option β) :
    ∀ (l : List α) (ys : List β), l.mapM f = some ys → ys.length = l.length := by
  intro l
  induction l with
  | nil =>
    intro ys h
    have h2 : some ([] : List β) = some ys := h
    cases h2
    rfl
  | cons a t ih =>
    intro ys h
    simp only [List.mapM_cons, Option.pure_def, Option.bind_eq_bind,
      Option.bind_eq_some] at h
    obtain ⟨b, _, bs, hbs, hys⟩ := h
    obtain rfl := Option.some.inj hys
    simp [ih bs hbs]

theorem mapM_option_take {α β : Type} (f : α → Option β) :
    ∀ (l : List α) (ys : List β), l.mapM f = some ys →
      ∀ n, (l.take n).mapM f = some (ys.take n) := by
  intro l
  induction l with
  | nil =>
    intro ys h n
    have h2 : some ([] : List β) = some ys := h
    cases h2
    simp only [List.take_nil]
    rfl
  | cons a t ih =>
    intro ys h n
    simp only [List.mapM_cons, Option.pure_def, Option.bind_eq_bind,
      Option.bind_eq_some] at h
    obtain ⟨b, hb, bs, hbs, hys⟩ := h
    obtain rfl := Option.some.inj hys
    cases n with
    | zero => simpa using mapM_option_nil f
    | succ m =>
      simp only [List.take_succ_cons, List.mapM_cons, Option.pure_def,
        Option.bind_eq_bind, Option.bind_eq_some]
      exact ⟨b, hb, (bs.take m), ih bs hbs m, rfl⟩

theorem mapM_option_drop {α β : Type} (f : α → Option β) :
    ∀ (l : List α) (ys : List β), l.mapM f = some ys →
      ∀ n, (l.drop n).mapM f = some (ys.drop n) := by
  intro l
  induction l with
  | nil =>
    intro ys h n
    have h2 : some ([] : List β) = some ys := h
    cases h2
    simp only [List.drop_nil]
    rfl
  | cons a t ih =>
    intro ys h n
    simp only [List.mapM_cons, Option.pure_def, Option.bind_eq_bind,
      Option.bind_eq_some] at h
    obtain ⟨b, hb, bs, hbs, hys⟩ := h
    obtain rfl := Option.some.inj hys
    cases n with
    | zero =>
      simp only [List.drop_zero]
      simp only [List.mapM_cons, Option.pure_def, Option.bind_eq_bind,
        Option.bind_eq_some]
      exact ⟨b, hb, bs, hbs, rfl⟩
    | succ m => simpa using ih bs hbs m

/-! ### C10: exhaustion of the line stack during the user symmetry loop -/

theorem readSymmetries_exhaust (n : ℤ) :
    ∀ (lines : List String) (acc : List SymopTable),
      (acc.length : ℤ) + (lines.countP (fun l => (parseSymopUser l).isSome)) < n →
      readSymmetries n lines acc = .error PyErr.indexError := by
  intro lines
  induction lines with
  | nil =>
    intro acc h
    rw [readSymmetries]
    simp only [List.countP_nil, Nat.cast_zero, add_zero] at h
    simp [h]
  | cons l rest ih =>
    intro acc h
    rw [readSymmetries]
    have hlt : (acc.length : ℤ) < n := by
      have h0 : (0 : ℤ) ≤ ((l :: rest).countP (fun l => (parseSymopUser l).isSome)) := by
        exact_mod_cast Nat.zero_le _
      omega
    simp only [hlt, if_pos]
    cases hp : parseSymopUser l with
    | some s =>
      apply ih
      have hc : (l :: rest).countP (fun l => (parseSymopUser l).isSome)
          = rest.countP (fun l => (parseSymopUser l).isSome) + 1 := by
        simp [List.countP_cons, hp]
      rw [hc] at h
      simp only [List.length_append, List.length_cons, List.length_nil]
      push_cast
      push_cast at h
      omega
    | none =>
      apply ih
      have hc : (l :: rest).countP (fun l => (parseSymopUser l).isSome)
          = rest.countP (fun l => (parseSymopUser l).isSome) := by
        simp [List.countP_cons, hp]
      omega

/-- C10: on the user load path, if the line stream after the
`symmetries=` marker contains fewer parseable symmetry-operation lines
than `nsym`, the loop pops the stack empty and raises an uncaught
`IndexError` (rather than terminating leniently with a partial table);
lines that are present but unparseable are merely skipped, which is why
only the count of *parseable* lines matters. -/
theorem c10_symmetry_exhaustion_index_error (n : ℤ) (lines : List String)
    (SG : ℤ) (sp : Bool) (nm : Option String)
    (h : ((lines.countP (fun l => (parseSymopUser l).isSome)) : ℤ) < n) :
    readSymmetries n lines [] = .error PyErr.indexError ∧
    userHeader SG sp ("symmetries=" :: lines) nm (some n) = .error PyErr.indexError := by
  have hr : readSymmetries n lines [] = .error PyErr.indexError := by
    apply readSymmetries_exhaust
    simpa using h
  refine ⟨hr, ?_⟩
  simp only [userHeader]
  have hkey : pyLower ((splitOnChar '=' (pyStrip "symmetries=")).headD "") = "symmetries" := by
    with_unfolding_all decide
  rw [hkey]
  rw [if_neg (by decide), if_neg (by decide), if_neg (by decide), if_neg (by decide),
    if_pos rfl]
  rw [hr]

/-- Witness for C10 at a concrete exhausted stream (no lines after the
marker, `nsym = 1`). -/
theorem c10_witness :
    readSymmetries 1 [] [] = .error PyErr.indexError ∧
    userHeader 1 false ["symmetries="] none (some 1) = .error PyErr.indexError :=
  c10_symmetry_exhaustion_index_error 1 [] 1 false none
    (by with_unfolding_all decide)

/-! ### C9: user-path irreps never carry `hasuvw`, so `save4user` fails -/

theorem parseIrrepUserTokens_hasuvw_none :
    ∀ (tokens : List String) (kp : KPoint) (irr : Irrep),
      parseIrrepUserTokens tokens kp = some irr → irr.hasuvw = none := by
  intro tokens kp irr h
  match tokens with
  | [] => simp [parseIrrepUserTokens] at h
  | [x] => simp [parseIrrepUserTokens] at h
  | nmTok :: dimTok :: rest =>
    simp only [parseIrrepUserTokens, mkUserIrrep, Option.bind_eq_some] at h
    obtain ⟨d, _, amps, _, vals, _, h⟩ := h
    split at h
    · obtain rfl := Option.some.inj h
      rfl
    · cases h

theorem parseIrrepUser_hasuvw_none (line : String) (kp : KPoint) (irr : Irrep)
    (h : parseIrrepUser line kp = some irr) : irr.hasuvw = none :=
  parseIrrepUserTokens_hasuvw_none (pySplit line) kp irr h

theorem kpIrrStep_hasuvw_none (l : String) (kpCtx : Option KPoint)
    (acc : List Irrep) (hacc : ∀ irr ∈ acc, irr.hasuvw = none) :
    ∀ irr ∈ (kpIrrStep l kpCtx acc).2, irr.hasuvw = none := by
  intro irr hm
  unfold kpIrrStep at hm
  simp only at hm
  split at hm
  · exact hacc irr hm
  · split at hm
    · exact hacc irr hm
    · rename_i kp hkp
      split at hm
      · rename_i irr2 hirr
        rcases List.mem_append.mp hm with h3 | h3
        · exact hacc irr h3
        · rcases List.mem_singleton.mp h3 with rfl
          exact parseIrrepUser_hasuvw_none _ _ _ hirr
      · exact hacc irr hm

theorem kpIrrLoop_hasuvw_none :
    ∀ (lines : List String) (kpCtx : Option KPoint) (acc : List Irrep),
      (∀ irr ∈ acc, irr.hasuvw = none) →
      ∀ irr ∈ kpIrrLoop lines kpCtx acc, irr.hasuvw = none := by
  intro lines
  induction lines with
  | nil => intro kpCtx acc hacc irr hm; exact hacc irr hm
  | cons l rest ih =>
    intro kpCtx acc hacc irr hm
    rw [kpIrrLoop] at hm
    exact ih _ _ (kpIrrStep_hasuvw_none l kpCtx acc hacc) irr hm

/-- C9: every `Irrep` built by the user path lacks the `hasuvw`
attribute, and consequently `save4user` on any user-loaded table with at
least one irrep raises `AttributeError` (at the first irrep of the
k-point collection loop — or already at the header write if `name`/`nsym`
are also missing) and emits no k-point section at all. -/
theorem c9_user_table_save_attribute_error (SG : ℤ) (sp : Bool)
    (lines : List String) (T : IrrepTable)
    (hload : loadUser SG sp lines = .ok T) (hne : T.irreps ≠ []) :
    (∀ irr ∈ T.irreps, irr.hasuvw = none) ∧
    save4user T = ([], some PyErr.attributeError) := by
  have hall : ∀ irr ∈ T.irreps, irr.hasuvw = none := by
    rw [loadUser] at hload
    cases hh : userHeader SG sp lines none none with
    | error e => rw [hh] at hload; cases hload
    | ok st =>
      rw [hh] at hload
      obtain ⟨nm, ns, syms, rest⟩ := st
      obtain rfl := Except.ok.inj hload
      intro irr hm
      exact kpIrrLoop_hasuvw_none rest none [] (by intro i hi; cases hi) irr hm
  refine ⟨hall, ?_⟩
  rw [save4user]
  split
  · rfl
  · have hcol : collectKpoints T.irreps [] = .error PyErr.attributeError := by
      cases hirr : T.irreps with
      | nil => exact absurd hirr hne
      | cons irr0 rest =>
        rw [collectKpoints]
        have h0 : irr0.hasuvw = none := hall irr0 (hirr ▸ List.mem_cons_self _ _)
        rw [h0]
    rw [hcol]

/-- A minimal complete user-format table file: full header, one symmetry
operation, one k-point, one (real, one-dimensional) irrep. -/
def userTableLines : List String :=
  ["SG=1", " name=P1 ", " nsym= 1", " spinor=False", "symmetries=",
   "1 0 0 0 1 0 0 0 1 0.0 0.0 0.0",
   "",
   " kpoint  GM : 0.0 0.0 0.0 : 1",
   "GM1 1    1.0"]

/-- Witness for C9: the concrete user table `userTableLines` loads
successfully with one irrep, and saving it yields no k-point section and
an `AttributeError`. -/
theorem c9_witness :
    ∃ T, loadUser 1 false userTableLines = Except.ok T ∧ T.irreps ≠ [] ∧
      (∀ irr ∈ T.irreps, irr.hasuvw = none) ∧
      save4user T = ([], some PyErr.attributeError) := by
  cases hT : loadUser 1 false userTableLines with
  | error e =>
    exfalso
    have hok : (loadUser 1 false userTableLines).isOk = true := by
      with_unfolding_all decide
    rw [hT] at hok
    cases hok
  | ok T =>
    have hne : T.irreps ≠ [] := by
      have hlen : (loadUser 1 false userTableLines).map (fun T => T.irreps.length)
          = Except.ok 1 := by with_unfolding_all decide
      rw [hT] at hlen
      intro hnil
      simp only [Except.map, hnil, List.length_nil] at hlen
      cases Except.ok.inj hlen
    obtain ⟨h1, h2⟩ := c9_user_table_save_attribute_error 1 false userTableLines T hT hne
    exact ⟨T, rfl, hne, h1, h2⟩


/-! ### C1: the save/load round-trip (code bug on the user path) -/

/-- C1 (code bug evaluation): the round-trip claimed by the spec fails on
the user load path.  The concrete table `userTableLines` loads via the
user path with one irrep, but `save4user` aborts with `AttributeError`
(the user-path `Irrep` constructor never assigns `hasuvw`, which
`save4user` reads) before emitting any k-point section, so `load(save(T))`
cannot reproduce the table — nothing irrep-related is ever written. -/
theorem c1_user_roundtrip_attribute_error :
    (loadUser 1 false userTableLines).map (fun T => T.irreps.length) = Except.ok 1 ∧
    (loadUser 1 false userTableLines).map save4user
      = Except.ok ([], some PyErr.attributeError) :=
  ⟨by with_unfolding_all decide, by with_unfolding_all decide⟩

/-! ### C2: header consistency checks (code bug: the SG check is dead) -/

/-- C2 (code bug evaluation): `userTableLines` declares `SG=1`, yet
loading it while requesting space group 6 succeeds — the source compares
`l[0].lower()` (always lowercase) against the uppercase literal `"SG"`,
so the SG assertion can never fire.  The spinor assertion, by contrast,
is live: requesting `spinor=True` against the stored `spinor=False`
aborts the load with `AssertionError`. -/
theorem c2_sg_check_dead_spinor_check_live :
    (loadUser 6 false userTableLines).isOk = true ∧
    loadUser 1 true userTableLines = Except.error PyErr.assertionError :=
  ⟨by with_unfolding_all decide, by with_unfolding_all decide⟩

/-! ### C8: the concrete k-point line scenario -/

/-- C8 counterexample: the claim's line `"GM : 0.0 0.0 0.0 : 1 2"` does
*not* parse as a `KPoint` — `KPoint.__init__` requires the first
colon-field to start with the literal marker token `kpoint` and raises
`ValueError` otherwise. -/
theorem c8_counterexample_marker_required :
    parseKPoint "GM : 0.0 0.0 0.0 : 1 2" = none := by
  with_unfolding_all decide

/-- C8 (amended): with the `kpoint` marker prepended, the line parses to
`KPoint(name="GM", k=(0,0,0), isym={1,2})`, and re-parsing the marker
plus the k-point's own serialization (`KPoint.str`) yields an equal
k-point under `KPoint.__eq__`. -/
theorem c8_amended_kpoint_roundtrip :
    parseKPoint "kpoint GM : 0.0 0.0 0.0 : 1 2"
      = some ⟨"GM", [0, 0, 0], [1, 2]⟩ ∧
    (∃ kp2, parseKPoint ("kpoint " ++ KPoint.strLine ⟨"GM", [0, 0, 0], [1, 2]⟩)
        = some kp2 ∧ kpEq kp2 ⟨"GM", [0, 0, 0], [1, 2]⟩ = true) :=
  ⟨by with_unfolding_all decide,
   ⟨⟨"GM", [0, 0, 0], [1, 2]⟩,
    by with_unfolding_all decide, by with_unfolding_all decide⟩⟩

/-! ### C4: user-encoding irrep parsing, reality inference -/

theorem constToC_single (a p : ℚ) :
    constToC [(a, p)] = (a : ℂ) * expiPi (p : ℝ) := by
  simp [constToC]

theorem constToC_single_real (a : ℚ) : constToC [(a, 0)] = (a : ℂ) := by
  simp [constToC, expiPi]

/-- C4: parsing a user-encoding irrep line against a k-point with `nsym`
little-group indices: with exactly `nsym` numeric tokens after the
dimension, `reality` is inferred `true` and the characters are the real
amplitudes; with exactly `2*nsym` tokens (`nsym > 0`), `reality` is
`false` and character `i` pairs amplitude `i` with phase `i` (amplitude
block first), whose complex value is `amp * exp(i*pi*phase)`; in both
cases characters are keyed by the k-point's stored `isym` order. -/
theorem c4_user_irrep_reality_inference (kp : KPoint) (nmTok dimTok : String)
    (rest : List String) (d : ℤ) (qs : List ℚ)
    (hd : pyInt dimTok = some d) (hq : rest.mapM parseRat = some qs) :
    (rest.length = kp.isym.length →
      parseIrrepUserTokens (nmTok :: dimTok :: rest) kp
        = some { k := kp.k, kpname := kp.name, name := nmTok, dim := d,
                 nsym := (kp.isym.length : ℤ), reality := Sum.inr true,
                 characters := kp.isym.zip
                   (qs.map (fun a => CharValue.const [(a, 0)])),
                 hasuvw := none, has_rkmk := none }) ∧
    (rest.length = 2 * kp.isym.length → kp.isym.length ≠ 0 →
      parseIrrepUserTokens (nmTok :: dimTok :: rest) kp
        = some { k := kp.k, kpname := kp.name, name := nmTok, dim := d,
                 nsym := (kp.isym.length : ℤ), reality := Sum.inr false,
                 characters := kp.isym.zip
                   (((qs.take kp.isym.length).zip (qs.drop kp.isym.length)).map
                     (fun p => CharValue.const [p])),
                 hasuvw := none, has_rkmk := none }) ∧
    (∀ a p : ℚ, constToC [(a, p)] = (a : ℂ) * expiPi (p : ℝ)) ∧
    (∀ a : ℚ, constToC [(a, 0)] = (a : ℂ)) := by
  have hlen : qs.length = rest.length := mapM_option_length parseRat rest qs hq
  refine ⟨?_, ?_, constToC_single, constToC_single_real⟩
  · intro h1
    have htake : rest.take kp.isym.length = rest := by
      apply List.take_of_length_le
      omega
    have hdec : decide (rest.length = kp.isym.length) = true := by
      simp [h1]
    have hle : kp.isym.length ≤ (qs.map (fun a => (a, (0 : ℚ)))).length := by
      simp [hlen, h1]
    have htake2 : (qs.map (fun a => (a, (0 : ℚ)))).take kp.isym.length
        = qs.map (fun a => (a, (0 : ℚ))) := by
      apply List.take_of_length_le
      simp [hlen, h1]
    simp only [parseIrrepUserTokens, hd, Option.some_bind', mkUserIrrep,
      htake, hq, userVals, hdec, if_true, if_pos hle, htake2, List.map_map]
    rfl
  · intro h2 hpos
    have hdec : decide (rest.length = kp.isym.length) = false := by
      simp only [decide_eq_false_iff_not]
      omega
    have hdropq : (rest.drop kp.isym.length).mapM parseRat
        = some (qs.drop kp.isym.length) :=
      mapM_option_drop parseRat rest qs hq kp.isym.length
    have htake3 : (qs.drop kp.isym.length).take kp.isym.length
        = qs.drop kp.isym.length := by
      apply List.take_of_length_le
      simp only [List.length_drop, hlen]
      omega
    have hlt : (qs.take kp.isym.length).length = (qs.drop kp.isym.length).length := by
      simp only [List.length_take, List.length_drop, hlen]
      omega
    have hle2 : kp.isym.length
        ≤ ((qs.take kp.isym.length).zip (qs.drop kp.isym.length)).length := by
      simp only [List.length_zip, List.length_take, List.length_drop, hlen]
      omega
    have htake4 : ((qs.take kp.isym.length).zip (qs.drop kp.isym.length)).take
        kp.isym.length = (qs.take kp.isym.length).zip (qs.drop kp.isym.length) := by
      apply List.take_of_length_le
      simp only [List.length_zip, List.length_take, List.length_drop, hlen]
      omega
    simp only [parseIrrepUserTokens, hd, Option.some_bind', mkUserIrrep,
      mapM_option_take parseRat rest qs hq kp.isym.length, userVals, hdec,
      Bool.false_eq_true, if_false,
      mapM_option_take parseRat _ _ hdropq kp.isym.length, htake3,
      npBroadcast, if_pos hlt, if_pos hle2, htake4]

/-- Witness for C4 at a concrete input: k-point `GM` with `isym = {1, 2}`
and the real irrep line tokens `GM1 1 1.0 1.0`. -/
theorem c4_witness :
    pyInt "1" = some 1 ∧
    (["1.0", "1.0"].mapM parseRat = some [1, 1]) ∧
    parseIrrepUserTokens ["GM1", "1", "1.0", "1.0"] ⟨"GM", [0, 0, 0], [1, 2]⟩
      = some { k := [0, 0, 0], kpname := "GM", name := "GM1", dim := 1,
               nsym := ((["1", "2"].length : ℕ) : ℤ) - 1 + 1 - 1 + 1 - 1 - 1 + 2,
               reality := Sum.inr true,
               characters := [1, 2].zip
                 (([1, 1] : List ℚ).map (fun a => CharValue.const [(a, 0)])),
               hasuvw := none, has_rkmk := none } := by
  refine ⟨by with_unfolding_all decide, by with_unfolding_all decide, ?_⟩
  have h := (c4_user_irrep_reality_inference ⟨"GM", [0, 0, 0], [1, 2]⟩ "GM1" "1"
    ["1.0", "1.0"] 1 [1, 1] (by with_unfolding_all decide)
    (by with_unfolding_all decide)).1 (by with_unfolding_all decide)
  rw [h]
  norm_num

/-! ### C7: once-only reduction of parameter-free machine characters -/

theorem except_bind_ok {ε α β : Type} (x : Except ε α) (f : α → Except ε β) (b : β)
    (h : (x >>= f) = .ok b) : ∃ a, x = .ok a ∧ f a = .ok b := by
  cases x with
  | error e => exact absurd h (by simp [Bind.bind, Except.bind])
  | ok a => exact ⟨a, rfl, by simpa [Bind.bind, Except.bind] using h⟩

theorem termPhase_zero (tl : List ℚ) :
    termPhase tl 0 0 0 = ((tl.headD 0 : ℚ) : ℝ) := by
  rcases tl with _ | ⟨a, _ | ⟨b, _ | ⟨c, _ | ⟨e, t⟩⟩⟩⟩ <;>
    simp [termPhase, List.zipWith]

theorem constToC_reduceTerms :
    ∀ (abcde : List (List ℚ)) (ts : List (ℚ × ℚ)),
      reduceTerms abcde = .ok ts → constToC ts = mCharCall abcde 0 0 0 := by
  intro abcde
  induction abcde with
  | nil =>
    intro ts h
    have h2 : (Except.ok [] : Except PyErr (List (ℚ × ℚ))) = .ok ts := h
    cases Except.ok.inj h2
    simp [constToC, mCharCall]
  | cons aaa rest ih =>
    intro ts h
    rw [reduceTerms, List.mapM_cons] at h
    obtain ⟨b, hb, h⟩ := except_bind_ok _ _ _ h
    obtain ⟨bs, hbs, h⟩ := except_bind_ok _ _ _ h
    have h2 : (Except.ok (b :: bs) : Except PyErr (List (ℚ × ℚ))) = .ok ts := h
    cases Except.ok.inj h2
    cases aaa with
    | nil => cases hb
    | cons c r =>
      have hb2 : (Except.ok ((c, r.headD 0)) : Except PyErr (ℚ × ℚ)) = .ok b := hb
      cases Except.ok.inj hb2
      have ihr : constToC bs = mCharCall rest 0 0 0 := ih bs hbs
      simp only [constToC, mCharCall, List.map_cons, List.sum_cons] at ihr ⊢
      rw [← ihr]
      congr 1
      rw [termPhase_zero]
      simp

theorem mCharCall_zero_sum (abcde : List (List ℚ)) :
    mCharCall abcde 0 0 0
      = (abcde.map (fun aaa => ((aaa.headD 0 : ℚ) : ℂ)
          * Complex.exp (Complex.I * (Real.pi : ℂ)
            * ((aaa.tail.headD 0 : ℚ) : ℂ)))).sum := by
  unfold mCharCall
  congr 1
  apply List.map_congr_left
  intro aaa _
  rw [termPhase_zero]
  all_goals unfold expiPi
  all_goals push_cast
  all_goals rfl

theorem mapM_reduceChar_mem :
    ∀ (chars : List (ℕ × List (List ℚ))) (out : List (ℕ × CharValue)),
      chars.mapM reduceChar = .ok out →
      ∀ q ∈ out, ∃ abcde ts,
        reduceTerms abcde = .ok ts ∧ q.2 = CharValue.const ts := by
  intro chars
  induction chars with
  | nil =>
    intro out h q hq
    have h2 : (Except.ok [] : Except PyErr (List (ℕ × CharValue))) = .ok out := h
    cases Except.ok.inj h2
    cases hq
  | cons p rest ih =>
    intro out h q hq
    rw [List.mapM_cons] at h
    obtain ⟨b, hb, h⟩ := except_bind_ok _ _ _ h
    obtain ⟨bs, hbs, h⟩ := except_bind_ok _ _ _ h
    have h2 : (Except.ok (b :: bs) : Except PyErr (List (ℕ × CharValue))) = .ok out := h
    cases Except.ok.inj h2
    rw [reduceChar] at hb
    cases hr : reduceTerms p.2 with
    | error e => rw [hr] at hb; cases hb
    | ok ts =>
      rw [hr] at hb
      have hb2 : (Except.ok (p.1, CharValue.const ts)
          : Except PyErr (ℕ × CharValue)) = .ok b := hb
      cases Except.ok.inj hb2
      rcases List.mem_cons.mp hq with rfl | hq2
      · exact ⟨p.2, ts, hr, rfl⟩
      · exact ih bs hbs q hq2

/-- C7: for a successfully machine-parsed irrep, if no diagonal entry was
parameterized (`hasuvw = false`), every stored character is the constant
obtained by the once-only reduction of its `CharFunction` at `u=v=w=0`,
whose complex value is the sum over terms of `coefficient * exp(i*pi*a1)`;
if some entry was parameterized, every character remains a callable
(`CharValue.func`). -/
theorem c7_machine_character_reduction (g : ℤ) (lines : List String)
    (irr : Irrep) (rest : List String)
    (h : parseIrrepMachine g lines = .ok (irr, rest)) :
    (irr.hasuvw = some false → ∀ p ∈ irr.characters, ∃ abcde ts,
       reduceTerms abcde = .ok ts ∧ p.2 = CharValue.const ts ∧
       constToC ts = mCharCall abcde 0 0 0 ∧
       mCharCall abcde 0 0 0 = (abcde.map (fun aaa =>
         ((aaa.headD 0 : ℚ) : ℂ) * Complex.exp (Complex.I * (Real.pi : ℂ)
           * ((aaa.tail.headD 0 : ℚ) : ℂ)))).sum) ∧
    (irr.hasuvw = some true → ∀ p ∈ irr.characters, ∃ abcde,
       p.2 = CharValue.func abcde) := by
  simp only [parseIrrepMachine] at h
  split at h
  · cases h
  rename_i hdr hhdr
  split at h
  · cases h
  rename_i res chars hasuvw rest2 hslots
  split at h
  · cases h
  rename_i characters hcharsEq
  split at h
  case isFalse => cases h
  case isTrue hlenEq =>
  obtain ⟨h1, h2⟩ := Prod.mk.inj (Except.ok.inj h)
  subst h2
  constructor
  · intro hx
    have hfalse : hasuvw = false := by
      rw [← h1] at hx
      simpa using hx
    subst hfalse
    simp only [Bool.false_eq_true, if_false] at hcharsEq
    intro p hp
    rw [← h1] at hp
    simp only at hp
    obtain ⟨abcde, ts, hred, hconst⟩ :=
      mapM_reduceChar_mem chars characters hcharsEq p hp
    exact ⟨abcde, ts, hred, hconst, constToC_reduceTerms _ _ hred,
      mCharCall_zero_sum _⟩
  · intro hx
    have htrue : hasuvw = true := by
      rw [← h1] at hx
      simpa using hx
    subst htrue
    simp only [if_true] at hcharsEq
    intro p hp
    rw [← h1] at hp
    simp only at hp
    have h3 : characters = chars.map (fun p => (p.1, CharValue.func p.2)) :=
      (Except.ok.inj hcharsEq).symm
    rw [h3] at hp
    obtain ⟨q, _, rfl⟩ := List.mem_map.mp hp
    exact ⟨q.2, rfl⟩

/-- A machine irrep record for `nsym_group = 2`, dimension 1, declared
operation count 2, with a constant character on each of the two slots. -/
def machineIrrepLines : List String :=
  ["0.0 0.0 0.0 1 GM1 1 2 GM 1",
   "1 1", "1", "1.0 0.0 0.0 0.0 0.0",
   "2 1", "1", "1.0 1.0 0.0 0.0 0.0"]

/-- Witness for C7 at a concrete machine irrep record. -/
theorem c7_witness :
    ∃ irr rest, parseIrrepMachine 2 machineIrrepLines = Except.ok (irr, rest) ∧
      irr.hasuvw = some false ∧
      (∀ p ∈ irr.characters, ∃ abcde ts,
        reduceTerms abcde = .ok ts ∧ p.2 = CharValue.const ts ∧
        constToC ts = mCharCall abcde 0 0 0 ∧
        mCharCall abcde 0 0 0 = (abcde.map (fun aaa =>
          ((aaa.headD 0 : ℚ) : ℂ) * Complex.exp (Complex.I * (Real.pi : ℂ)
            * ((aaa.tail.headD 0 : ℚ) : ℂ)))).sum) := by
  cases hT : parseIrrepMachine 2 machineIrrepLines with
  | error e =>
    exfalso
    have hok : (parseIrrepMachine 2 machineIrrepLines).isOk = true := by
      with_unfolding_all decide
    rw [hT] at hok
    cases hok
  | ok pr =>
    obtain ⟨irr, rest⟩ := pr
    have hu : irr.hasuvw = some false := by
      have h2 : (parseIrrepMachine 2 machineIrrepLines).map
          (fun p => p.1.hasuvw) = .ok (some false) := by
        with_unfolding_all decide
      rw [hT] at h2
      simpa [Except.map] using h2
    exact ⟨irr, rest, rfl, hu,
      (c7_machine_character_reduction 2 machineIrrepLines irr rest hT).1 hu⟩

/-! ### C5: legacy halving of the symmetry count -/

/-- C5: for a legacy table whose header declares `nsym_group = 2k`, a
successful load yields `table.nsym == k` and a symmetry list that is
exactly the first `k` of the `2k` parsed operations. -/
theorem c5_legacy_halving (SG : ℤ) (sp : Bool) (lines : List String)
    (T : IrrepTable) (k : ℤ) (nsymTok nameTok : String)
    (htoks : pySplit (readline lines).1 = [nsymTok, nameTok])
    (hnum : pyInt nsymTok = some (2 * k))
    (hload : loadLegacy SG sp lines = .ok T) :
    T.nsym = some k ∧
    ∃ ops rest1, readNSymops (2 * k).toNat (readline lines).2 = .ok (ops, rest1) ∧
      T.symmetries = ops.take k.toNat ∧ T.symmetries.length = min k.toNat ops.length := by
  have hhalf : Int.tdiv (2 * k) 2 = k := Int.mul_tdiv_cancel_left k (by norm_num)
  simp only [loadLegacy, htoks, hnum] at hload
  cases hsym : readNSymops (2 * k).toNat (readline lines).2 with
  | error e => rw [hsym] at hload; cases hload
  | ok pr =>
    obtain ⟨ops, rest1⟩ := pr
    rw [hsym] at hload
    simp only at hload
    split at hload
    · cases hload
    · cases hnk : pyInt (readline (readline rest1).2).1 with
      | none => rw [hnk] at hload; cases hload
      | some nk =>
        rw [hnk] at hload
        simp only at hload
        cases hirr : legacyIrrepLoop (2 * k) ((readline (readline rest1).2).2.length + 1)
            (readline (readline rest1).2).2 [] with
        | error e => rw [hirr] at hload; cases hload
        | ok irreps0 =>
          rw [hirr] at hload
          simp only at hload
          obtain rfl := (Except.ok.inj hload).symm
          refine ⟨by simp [hhalf], ops, rest1, rfl, by simp [hhalf], ?_⟩
          simp [hhalf, List.length_take]

/-- A machine-encoding symmetry-operation line: identity rotation, zero
translation, identity spinor matrix (interleaved magnitude/phase). -/
def machineSymopLine : String :=
  "1 0 0 0 1 0 0 0 1 0.0 0.0 0.0 1.0 0.0 0.0 0.0 0.0 0.0 1.0 0.0"

/-- A legacy table with header count 4 (`2k` for `k = 2`), four symmetry
operations, the `#` separator, `NK = 1` and no irrep records. -/
def legacyTableLines : List String :=
  ["4 Fm-3m", machineSymopLine, machineSymopLine, machineSymopLine,
   machineSymopLine, "#", "1"]

/-- Witness for C5 at the concrete legacy table `legacyTableLines`. -/
theorem c5_witness :
    (pySplit (readline legacyTableLines).1 = ["4", "Fm-3m"]) ∧
    (pyInt "4" = some (2 * 2)) ∧
    ∃ T, loadLegacy 225 false legacyTableLines = .ok T ∧
      (T.nsym = some 2 ∧
       ∃ ops rest1,
         readNSymops ((2 * 2 : ℤ)).toNat (readline legacyTableLines).2
           = .ok (ops, rest1) ∧
         T.symmetries = ops.take (2 : ℤ).toNat ∧
         T.symmetries.length = min (2 : ℤ).toNat ops.length) := by
  refine ⟨by with_unfolding_all decide, by with_unfolding_all decide, ?_⟩
  cases hT : loadLegacy 225 false legacyTableLines with
  | error e =>
    exfalso
    have hok : (loadLegacy 225 false legacyTableLines).isOk = true := by
      with_unfolding_all decide
    rw [hT] at hok
    cases hok
  | ok T =>
    exact ⟨T, rfl, c5_legacy_halving 225 false legacyTableLines T 2 "4" "Fm-3m"
      (by with_unfolding_all decide) (by with_unfolding_all decide) hT⟩

/-! ### C3: which k-point sections `save4user` emits -/

/-- An irrep that contributes a k-point to the `save4user` dictionary:
non-parameterized (`hasuvw` present and false) with no reserved
coordinate. -/
def qualifies (irr : Irrep) : Bool :=
  decide (irr.hasuvw = some false) && unreserved irr.k

/-- Membership in a list of names (structural, for the `seen` set of
`newEntries`). -/
def seenHas : List String → String → Bool
  | [], _ => false
  | s :: rest, n => if s = n then true else seenHas rest n

/-- Reading of the claim: the first qualifying irrep with k-point name
`n`, whose derived k-point acts as the section's representative. -/
def firstQualifying (irreps : List Irrep) (n : String) : Option Irrep :=
  (irreps.filter (fun irr => qualifies irr && decide (irr.kpname = n))).head?

/-- Reading of the claim: the emitted k-points — one per distinct k-point
name with a qualifying irrep, keyed by name, deduplicated with the
first-seen qualifying irrep's k-point as representative, in first-seen
order. -/
def newEntries : List Irrep → List String → List (String × KPoint)
  | [], _ => []
  | irr :: rest, seen =>
    if qualifies irr && !(seenHas seen irr.kpname) then
      (irr.kpname, kpOfIrrep irr) :: newEntries rest (seen ++ [irr.kpname])
    else newEntries rest seen

/-- Reading of the claim: the k-point section part of the saved file —
for each emitted k-point name, its header line followed by every irrep
whose `kpname` matches, in table order. -/
def specSections (irreps : List Irrep) : List SaveEvent :=
  (newEntries irreps []).bind (fun p =>
    SaveEvent.kpointLine p.2 ::
      (irreps.filter (fun irr => irr.kpname = p.2.name)).map SaveEvent.irrepLine)

/-- Reading of the claim: every later qualifying irrep agrees (under
`KPoint.__eq__`) with the first-seen qualifying k-point of its name. -/
def specConsistent (irreps : List Irrep) : Bool :=
  irreps.all (fun irr =>
    !(qualifies irr) ||
    (match firstQualifying irreps irr.kpname with
     | some irr0 => kpEq (kpOfIrrep irr0) (kpOfIrrep irr)
     | none => true))

theorem zip_self_sq_sum (l : List ℚ) :
    ((l.zip l).map (fun p => (p.1 - p.2) ^ 2)).sum = 0 := by
  induction l with
  | nil => simp
  | cons a t ih => simp [ih]

theorem kpEq_refl (kp : KPoint) : kpEq kp kp = true := by
  simp only [kpEq, zip_self_sq_sum]
  norm_num

theorem lookupDict_none_iff :
    ∀ (dict : List (String × KPoint)) (n : String),
      lookupDict dict n = none ↔ seenHas (dict.map Prod.fst) n = false := by
  intro dict
  induction dict with
  | nil => intro n; simp [lookupDict, seenHas]
  | cons p rest ih =>
    intro n
    obtain ⟨m, kp⟩ := p
    by_cases hm : m = n
    · simp [lookupDict, seenHas, hm]
    · simp only [lookupDict, seenHas, List.map_cons, if_neg hm]
      exact ih n

theorem lookupDict_append_single :
    ∀ (dict : List (String × KPoint)) (m : String) (kp : KPoint) (n : String),
      lookupDict (dict ++ [(m, kp)]) n
        = match lookupDict dict n with
          | some kp0 => some kp0
          | none => if m = n then some kp else none := by
  intro dict
  induction dict with
  | nil => intro m kp n; simp [lookupDict]
  | cons p rest ih =>
    intro m kp n
    obtain ⟨m2, kp2⟩ := p
    by_cases hm : m2 = n
    · simp [lookupDict, hm]
    · simp only [List.cons_append, lookupDict, if_neg hm]
      exact ih m kp n

theorem firstQualifying_cons (irr : Irrep) (rest : List Irrep) (n : String) :
    firstQualifying (irr :: rest) n
      = if qualifies irr && decide (irr.kpname = n) then some irr
        else firstQualifying rest n := by
  simp only [firstQualifying, List.filter_cons]
  split
  · rfl
  · rfl

theorem newEntries_mem :
    ∀ (irreps : List Irrep) (seen : List String) (p : String × KPoint),
      p ∈ newEntries irreps seen →
      ∃ irr, irr ∈ irreps ∧ qualifies irr = true ∧ p = (irr.kpname, kpOfIrrep irr) := by
  intro irreps
  induction irreps with
  | nil => intro seen p hp; cases hp
  | cons irr rest ih =>
    intro seen p hp
    rw [newEntries] at hp
    split at hp
    · rename_i hcond
      rcases List.mem_cons.mp hp with rfl | hp2
      · exact ⟨irr, List.mem_cons_self _ _, (Bool.and_eq_true .. ▸ hcond).1, rfl⟩
      · obtain ⟨irr2, hm, hq, hpe⟩ := ih _ p hp2
        exact ⟨irr2, List.mem_cons_of_mem _ hm, hq, hpe⟩
    · obtain ⟨irr2, hm, hq, hpe⟩ := ih _ p hp
      exact ⟨irr2, List.mem_cons_of_mem _ hm, hq, hpe⟩

theorem collect_ok :
    ∀ (suf : List Irrep) (dict : List (String × KPoint)),
      (∀ irr ∈ suf, irr.hasuvw ≠ none) →
      (∀ irr ∈ suf, qualifies irr = true →
        ∀ kp0, lookupDict dict irr.kpname = some kp0 →
          kpEq kp0 (kpOfIrrep irr) = true) →
      (∀ irr ∈ suf, qualifies irr = true →
        lookupDict dict irr.kpname = none →
        ∀ irr0, firstQualifying suf irr.kpname = some irr0 →
          kpEq (kpOfIrrep irr0) (kpOfIrrep irr) = true) →
      collectKpoints suf dict = .ok (dict ++ newEntries suf (dict.map Prod.fst)) := by
  intro suf
  induction suf with
  | nil => intro dict _ _ _; simp [collectKpoints, newEntries]
  | cons irr rest ih =>
    intro dict h1 hcons hcons2
    cases hu : irr.hasuvw with
    | none => exact absurd hu (h1 irr (List.mem_cons_self _ _))
    | some b =>
      cases b with
      | true =>
        have hq : qualifies irr = false := by simp [qualifies, hu]
        rw [collectKpoints, hu]
        rw [newEntries]
        simp only [hq, Bool.false_and, Bool.false_eq_true, if_false]
        apply ih dict (fun i hi => h1 i (List.mem_cons_of_mem _ hi))
          (fun i hi => hcons i (List.mem_cons_of_mem _ hi))
        intro i hi hqi hlk irr0 hfq
        refine hcons2 i (List.mem_cons_of_mem _ hi) hqi hlk irr0 ?_
        rw [firstQualifying_cons, hq]
        simpa using hfq
      | false =>
        cases hr : unreserved irr.k with
        | false =>
          have hq : qualifies irr = false := by simp [qualifies, hr]
          rw [collectKpoints, hu]
          have hrk : unreserved (kpOfIrrep irr).k = false := hr
          rw [newEntries]
          simp only [hrk, Bool.false_eq_true, if_false, hq, Bool.false_and]
          apply ih dict (fun i hi => h1 i (List.mem_cons_of_mem _ hi))
            (fun i hi => hcons i (List.mem_cons_of_mem _ hi))
          intro i hi hqi hlk irr0 hfq
          refine hcons2 i (List.mem_cons_of_mem _ hi) hqi hlk irr0 ?_
          rw [firstQualifying_cons, hq]
          simpa using hfq
        | true =>
          have hq : qualifies irr = true := by simp [qualifies, hu, hr]
          have hrk : unreserved (kpOfIrrep irr).k = true := hr
          have hnm : (kpOfIrrep irr).name = irr.kpname := rfl
          cases hlk : lookupDict dict irr.kpname with
          | some kp0 =>
            have hkpeq : kpEq kp0 (kpOfIrrep irr) = true :=
              hcons irr (List.mem_cons_self _ _) hq kp0 hlk
            have hseen : seenHas (dict.map Prod.fst) irr.kpname = true := by
              cases hsh : seenHas (dict.map Prod.fst) irr.kpname with
              | true => rfl
              | false =>
                rw [← lookupDict_none_iff] at hsh
                rw [hsh] at hlk
                cases hlk
            rw [collectKpoints, hu]
            simp only [hrk, if_true, hnm, hlk, hkpeq]
            rw [newEntries]
            simp only [hq, hseen, Bool.not_true, Bool.and_false, Bool.false_eq_true,
              if_false]
            apply ih dict (fun i hi => h1 i (List.mem_cons_of_mem _ hi))
              (fun i hi => hcons i (List.mem_cons_of_mem _ hi))
            intro i hi hqi hlk2 irr0 hfq
            refine hcons2 i (List.mem_cons_of_mem _ hi) hqi hlk2 irr0 ?_
            rw [firstQualifying_cons]
            have hne : irr.kpname ≠ i.kpname := by
              intro he
              rw [← he, hlk] at hlk2
              cases hlk2
            have hcond : ¬((qualifies irr && decide (irr.kpname = i.kpname)) = true) := by
              simp [hne]
            rw [if_neg hcond]
            exact hfq
          | none =>
            have hseen : seenHas (dict.map Prod.fst) irr.kpname = false :=
              (lookupDict_none_iff dict _).mp hlk
            rw [collectKpoints, hu]
            simp only [hrk, if_true, hnm, hlk]
            rw [newEntries]
            simp only [hq, hseen, Bool.not_false, Bool.and_true, if_true]
            have h1r : ∀ i ∈ rest, i.hasuvw ≠ none :=
              fun i hi => h1 i (List.mem_cons_of_mem _ hi)
            have hconsr : ∀ i ∈ rest, qualifies i = true →
                ∀ kp0, lookupDict (dict ++ [(irr.kpname, kpOfIrrep irr)]) i.kpname
                  = some kp0 → kpEq kp0 (kpOfIrrep i) = true := by
              intro i hi hqi kp0 hlk2
              rw [lookupDict_append_single] at hlk2
              cases hlk3 : lookupDict dict i.kpname with
              | some kp1 =>
                rw [hlk3] at hlk2
                obtain rfl := Option.some.inj hlk2
                exact hcons i (List.mem_cons_of_mem _ hi) hqi kp1 hlk3
              | none =>
                rw [hlk3] at hlk2
                simp only at hlk2
                split at hlk2
                · rename_i hnm2
                  obtain rfl := Option.some.inj hlk2
                  refine hcons2 i (List.mem_cons_of_mem _ hi) hqi hlk3 irr ?_
                  rw [firstQualifying_cons]
                  simp [hq, hnm2]
                · cases hlk2
            have hcons2r : ∀ i ∈ rest, qualifies i = true →
                lookupDict (dict ++ [(irr.kpname, kpOfIrrep irr)]) i.kpname = none →
                ∀ irr0, firstQualifying rest i.kpname = some irr0 →
                  kpEq (kpOfIrrep irr0) (kpOfIrrep i) = true := by
              intro i hi hqi hlk2 irr0 hfq
              rw [lookupDict_append_single] at hlk2
              cases hlk3 : lookupDict dict i.kpname with
              | some kp1 => rw [hlk3] at hlk2; cases hlk2
              | none =>
                rw [hlk3] at hlk2
                simp only at hlk2
                split at hlk2
                · cases hlk2
                · rename_i hnm2
                  refine hcons2 i (List.mem_cons_of_mem _ hi) hqi hlk3 irr0 ?_
                  rw [firstQualifying_cons]
                  have hcond : ¬((qualifies irr && decide (irr.kpname = i.kpname)) = true) := by
                    simp [hnm2]
                  rw [if_neg hcond]
                  exact hfq
            rw [ih (dict ++ [(irr.kpname, kpOfIrrep irr)]) h1r hconsr hcons2r]
            simp [List.map_append]

theorem collect_err :
    ∀ (suf : List Irrep) (dict : List (String × KPoint)),
      (∀ irr ∈ suf, irr.hasuvw ≠ none) →
      (∃ irr2 ∈ suf, qualifies irr2 = true ∧
        ((∃ kp0, lookupDict dict irr2.kpname = some kp0 ∧
           kpEq kp0 (kpOfIrrep irr2) = false) ∨
         (lookupDict dict irr2.kpname = none ∧ ∃ irr0,
           firstQualifying suf irr2.kpname = some irr0 ∧
           kpEq (kpOfIrrep irr0) (kpOfIrrep irr2) = false))) →
      collectKpoints suf dict = .error PyErr.assertionError := by
  intro suf
  induction suf with
  | nil =>
    intro dict _ hv
    obtain ⟨irr2, hm, _⟩ := hv
    cases hm
  | cons irr rest ih =>
    intro dict h1 hv
    obtain ⟨irr2, hm2, hq2, hdis⟩ := hv
    have h1r : ∀ i ∈ rest, i.hasuvw ≠ none :=
      fun i hi => h1 i (List.mem_cons_of_mem _ hi)
    cases hu : irr.hasuvw with
    | none => exact absurd hu (h1 irr (List.mem_cons_self _ _))
    | some b =>
      have hskip : qualifies irr = false →
          collectKpoints rest dict = .error PyErr.assertionError := by
        intro hq
        have hne : irr2 ≠ irr := by
          intro he
          rw [he, hq] at hq2
          cases hq2
        have hm2r : irr2 ∈ rest := by
          rcases List.mem_cons.mp hm2 with rfl | h
          · exact absurd rfl hne
          · exact h
        apply ih dict h1r
        refine ⟨irr2, hm2r, hq2, ?_⟩
        rcases hdis with ha | ⟨hlk, irr0, hfq, hke⟩
        · exact Or.inl ha
        · refine Or.inr ⟨hlk, irr0, ?_, hke⟩
          rw [firstQualifying_cons, hq] at hfq
          simpa using hfq
      cases b with
      | true =>
        have hq : qualifies irr = false := by simp [qualifies, hu]
        rw [collectKpoints, hu]
        exact hskip hq
      | false =>
        cases hr : unreserved irr.k with
        | false =>
          have hq : qualifies irr = false := by simp [qualifies, hr]
          have hrk : unreserved (kpOfIrrep irr).k = false := hr
          rw [collectKpoints, hu]
          simp only [hrk, Bool.false_eq_true, if_false]
          exact hskip hq
        | true =>
          have hq : qualifies irr = true := by simp [qualifies, hu, hr]
          have hrk : unreserved (kpOfIrrep irr).k = true := hr
          have hnm : (kpOfIrrep irr).name = irr.kpname := rfl
          cases hlk : lookupDict dict irr.kpname with
          | some kp0 =>
            cases hke : kpEq kp0 (kpOfIrrep irr) with
            | false =>
              rw [collectKpoints, hu]
              simp only [hrk, if_true, hnm, hlk, hke, Bool.false_eq_true, if_false]
            | true =>
              rw [collectKpoints, hu]
              simp only [hrk, if_true, hnm, hlk, hke, if_true]
              have hm2r : irr2 ∈ rest := by
                rcases List.mem_cons.mp hm2 with rfl | h
                · exfalso
                  rcases hdis with ⟨kp1, hlk1, hke1⟩ | ⟨hlk1, _⟩
                  · rw [hlk] at hlk1
                    obtain rfl := Option.some.inj hlk1
                    rw [hke] at hke1
                    cases hke1
                  · rw [hlk] at hlk1
                    cases hlk1
                · exact h
              apply ih dict h1r
              refine ⟨irr2, hm2r, hq2, ?_⟩
              rcases hdis with ha | ⟨hlk1, irr0, hfq, hke1⟩
              · exact Or.inl ha
              · refine Or.inr ⟨hlk1, irr0, ?_, hke1⟩
                have hne : irr.kpname ≠ irr2.kpname := by
                  intro he
                  rw [← he, hlk] at hlk1
                  cases hlk1
                rw [firstQualifying_cons] at hfq
                have hcond : ¬((qualifies irr && decide (irr.kpname = irr2.kpname))
                    = true) := by simp [hne]
                rw [if_neg hcond] at hfq
                exact hfq
          | none =>
            rw [collectKpoints, hu]
            simp only [hrk, if_true, hnm, hlk]
            have hm2r : irr2 ∈ rest := by
              rcases List.mem_cons.mp hm2 with rfl | h
              · exfalso
                rcases hdis with ⟨kp1, hlk1, _⟩ | ⟨_, irr0, hfq, hke1⟩
                · rw [hlk] at hlk1
                  cases hlk1
                · rw [firstQualifying_cons] at hfq
                  have hcond : (qualifies irr2 && decide (irr2.kpname = irr2.kpname))
                      = true := by simp [hq2]
                  rw [if_pos hcond] at hfq
                  obtain rfl := Option.some.inj hfq.symm
                  rw [kpEq_refl] at hke1
                  cases hke1
              · exact h
            apply ih (dict ++ [(irr.kpname, kpOfIrrep irr)]) h1r
            refine ⟨irr2, hm2r, hq2, ?_⟩
            rcases hdis with ⟨kp1, hlk1, hke1⟩ | ⟨hlk1, irr0, hfq, hke1⟩
            · refine Or.inl ⟨kp1, ?_, hke1⟩
              rw [lookupDict_append_single, hlk1]
            · by_cases hnm2 : irr.kpname = irr2.kpname
              · refine Or.inl ⟨kpOfIrrep irr, ?_, ?_⟩
                · rw [lookupDict_append_single, hlk1]
                  simp [hnm2]
                · rw [firstQualifying_cons] at hfq
                  have hcond : (qualifies irr && decide (irr.kpname = irr2.kpname))
                      = true := by simp [hq, hnm2]
                  rw [if_pos hcond] at hfq
                  obtain rfl := Option.some.inj hfq.symm
                  exact hke1
              · refine Or.inr ⟨?_, irr0, ?_, hke1⟩
                · rw [lookupDict_append_single, hlk1]
                  simp [hnm2]
                · rw [firstQualifying_cons] at hfq
                  have hcond : ¬((qualifies irr && decide (irr.kpname = irr2.kpname))
                      = true) := by simp [hnm2]
                  rw [if_neg hcond] at hfq
                  exact hfq

theorem writeIrrs_all_ok :
    ∀ (l : List Irrep) (acc : List SaveEvent),
      (∀ irr ∈ l, irrStrOk irr = .ok ()) →
      writeIrrs l acc = (acc ++ l.map SaveEvent.irrepLine, none) := by
  intro l
  induction l with
  | nil => intro acc _; simp [writeIrrs]
  | cons irr rest ih =>
    intro acc hok
    rw [writeIrrs, hok irr (List.mem_cons_self _ _)]
    rw [ih (acc ++ [SaveEvent.irrepLine irr])
      (fun i hi => hok i (List.mem_cons_of_mem _ hi))]
    simp

theorem emitSections_ok :
    ∀ (dict : List (String × KPoint)) (irreps : List Irrep) (acc : List SaveEvent),
      (∀ p ∈ dict, ∀ irr ∈ irreps, irr.kpname = p.2.name → irrStrOk irr = .ok ()) →
      emitSections irreps dict acc
        = (acc ++ dict.bind (fun p => SaveEvent.kpointLine p.2 ::
            (irreps.filter (fun irr => irr.kpname = p.2.name)).map
              SaveEvent.irrepLine), none) := by
  intro dict
  induction dict with
  | nil => intro irreps acc _; simp [emitSections]
  | cons p rest ih =>
    intro irreps acc hok
    obtain ⟨n, kp⟩ := p
    have hall : ∀ irr ∈ irreps.filter (fun irr => irr.kpname = kp.name),
        irrStrOk irr = .ok () := by
      intro irr hi
      obtain ⟨hm, hcond⟩ := List.mem_filter.mp hi
      exact hok (n, kp) (List.mem_cons_self _ _) irr hm (by simpa using hcond)
    rw [emitSections, writeIrrs_all_ok _ _ hall]
    split
    · rename_i acc3 e heq
      exact absurd (Prod.mk.inj heq).2 (by simp)
    · rename_i acc3 heq
      obtain ⟨ha, _⟩ := Prod.mk.inj heq
      rw [← ha, ih irreps _ (fun q hq => hok q (List.mem_cons_of_mem _ hq))]
      simp [List.cons_bind]

/-- The `irrStrOk` discharge for every irrep written within an emitted
section, under the no-mixed-names and well-formed-characters hypotheses. -/
theorem sections_strOk (irreps : List Irrep)
    (h2 : ∀ irr ∈ irreps, ∀ irr2 ∈ irreps, irr.kpname = irr2.kpname →
      irr.hasuvw = irr2.hasuvw)
    (h3 : ∀ irr ∈ irreps, irr.hasuvw = some false →
      irr.characters ≠ [] ∧ ∀ p ∈ irr.characters, ∃ ts, p.2 = CharValue.const ts) :
    ∀ p ∈ newEntries irreps [], ∀ irr ∈ irreps, irr.kpname = p.2.name →
      irrStrOk irr = .ok () := by
  intro p hp irr hm hnm
  obtain ⟨irrW, hmW, hqW, rfl⟩ := newEntries_mem irreps [] p hp
  have hWfalse : irrW.hasuvw = some false := by
    simp only [qualifies, Bool.and_eq_true, decide_eq_true_eq] at hqW
    exact hqW.1
  have hsame : irr.hasuvw = some false := by
    rw [h2 irr hm irrW hmW hnm, hWfalse]
  obtain ⟨hne, hall⟩ := h3 irr hm hsame
  rw [irrStrOk, if_neg hne]
  have hany : (irr.characters.any (fun p =>
      match p.2 with
      | CharValue.func _ => true
      | CharValue.const _ => false)) = false := by
    rw [List.any_eq_false]
    intro x hx
    obtain ⟨ts, hts⟩ := hall x hx
    rw [hts]
    simp
  rw [hany]
  simp

/-- C3 (amended): for a table whose irreps all carry the `hasuvw`
attribute, whose k-point names are uniformly parameterized or not (no
mixed names — the counterexample below shows the original claim fails on
a mixed name), and whose non-parameterized irreps have nonempty
constant-valued characters (as the legacy loader guarantees), `save4user`
emits exactly one k-point section per distinct name having a
(non-parameterized, unreserved-coordinate) qualifying irrep — first-seen
representative, each section listing every irrep with matching `kpname`
in table order — when all later same-named qualifying k-points equal the
first-seen one, and otherwise aborts via the equality assertion with
nothing emitted. -/
theorem c3_amended_save_sections (T : IrrepTable)
    (hname : T.name.isSome) (hnsym : T.nsym.isSome)
    (h1 : ∀ irr ∈ T.irreps, irr.hasuvw ≠ none)
    (h2 : ∀ irr ∈ T.irreps, ∀ irr2 ∈ T.irreps, irr.kpname = irr2.kpname →
      irr.hasuvw = irr2.hasuvw)
    (h3 : ∀ irr ∈ T.irreps, irr.hasuvw = some false →
      irr.characters ≠ [] ∧ ∀ p ∈ irr.characters, ∃ ts, p.2 = CharValue.const ts) :
    save4user T = if specConsistent T.irreps
      then (specSections T.irreps, none)
      else ([], some PyErr.assertionError) := by
  rw [save4user]
  have hcondname : ¬((T.name.isNone || T.nsym.isNone) = true) := by
    cases hn : T.name with
    | none => rw [hn] at hname; cases hname
    | some v =>
      cases hs : T.nsym with
      | none => rw [hs] at hnsym; cases hnsym
      | some w => simp
  rw [if_neg hcondname]
  cases hsc : specConsistent T.irreps with
  | true =>
    have hf := List.all_eq_true.mp hsc
    have hcol := collect_ok T.irreps [] h1
      (by intro i _ _ kp0 hlk; cases hlk)
      (by
        intro i hi hq _ irr0 hfq
        have hfi := hf i hi
        simp only [hq, Bool.not_true, Bool.false_or] at hfi
        rw [hfq] at hfi
        exact hfi)
    simp only [List.map_nil, List.nil_append] at hcol
    simp only [hcol]
    rw [emitSections_ok (newEntries T.irreps []) T.irreps []
      (sections_strOk T.irreps h2 h3)]
    simp [specSections]
  | false =>
    rw [specConsistent, List.all_eq_false] at hsc
    obtain ⟨i, hi, hfi⟩ := hsc
    simp only [Bool.not_eq_true, Bool.or_eq_false_iff] at hfi
    obtain ⟨hq0, hmatch⟩ := hfi
    have hq : qualifies i = true := by simpa using hq0
    cases hfq : firstQualifying T.irreps i.kpname with
    | none => rw [hfq] at hmatch; cases hmatch
    | some irr0 =>
      rw [hfq] at hmatch
      have hcol := collect_err T.irreps [] h1
        ⟨i, hi, hq, Or.inr ⟨rfl, irr0, hfq, hmatch⟩⟩
      simp only [hcol]
      simp

/-- A non-parameterized irrep at k-point `GM`. -/
def constGMIrrep : Irrep :=
  { k := [0, 0, 0], kpname := "GM", name := "GM1", dim := 1, nsym := 1,
    reality := Sum.inl 1, characters := [(1, CharValue.const [(1, 0)])],
    hasuvw := some false, has_rkmk := none }

/-- A parameterized (`hasuvw`) irrep at the same k-point `GM`. -/
def uvwGMIrrep : Irrep :=
  { k := [0, 0, 0], kpname := "GM", name := "GM2", dim := 1, nsym := 1,
    reality := Sum.inl 1, characters := [(1, CharValue.func [[1, 1, 0, 0, 0]])],
    hasuvw := some true, has_rkmk := none }

/-- A table whose k-point `GM` carries both a non-parameterized and a
parameterized irrep (a mixed name). -/
def mixedTable : IrrepTable :=
  { number := 1, spinor := false, name := some "P1", nsym := some 1,
    NK := some 1, symmetries := [], irreps := [constGMIrrep, uvwGMIrrep] }

/-- C3 counterexample: the claim as stated is false — `mixedTable`'s
k-point `GM` has a parameterized (`hasuvw`) irrep, yet `save4user` does
emit the `GM` k-point section header (the dictionary admits a name as
soon as *some* irrep at it is non-parameterized, not only when *none* is
parameterized); the full output shows the section header and the
constant irrep written before the parameterized irrep's `Irrep.str()`
aborts the save. -/
theorem c3_counterexample_mixed_kpoint :
    (∃ irr ∈ mixedTable.irreps, irr.kpname = "GM" ∧ irr.hasuvw = some true) ∧
    SaveEvent.kpointLine (kpOfIrrep constGMIrrep) ∈ (save4user mixedTable).1 ∧
    save4user mixedTable
      = ([SaveEvent.kpointLine (kpOfIrrep constGMIrrep),
          SaveEvent.irrepLine constGMIrrep], some PyErr.attributeError) := by
  refine ⟨⟨uvwGMIrrep, ?_, rfl, rfl⟩, ?_, ?_⟩
  · simp [mixedTable]
  · with_unfolding_all decide
  · with_unfolding_all decide

/-- A parameterized irrep at a different k-point name `X`. -/
def uvwXIrrep : Irrep :=
  { k := [1/2, 0, 0], kpname := "X", name := "X1", dim := 1, nsym := 1,
    reality := Sum.inl 1, characters := [(1, CharValue.func [[1, 1, 0, 0, 0]])],
    hasuvw := some true, has_rkmk := none }

/-- A table with uniformly non-parameterized `GM` and uniformly
parameterized `X`. -/
def uniformTable : IrrepTable :=
  { number := 1, spinor := false, name := some "P1", nsym := some 1,
    NK := some 1, symmetries := [], irreps := [constGMIrrep, uvwXIrrep] }

/-- Witness for C3 (amended) at the concrete `uniformTable`. -/
theorem c3_witness :
    save4user uniformTable = if specConsistent uniformTable.irreps
      then (specSections uniformTable.irreps, none)
      else ([], some PyErr.assertionError) := by
  refine c3_amended_save_sections uniformTable rfl rfl
    (by with_unfolding_all decide)
    (by
      intro irr hm irr2 hm2 hn
      have hm' : irr = constGMIrrep ∨ irr = uvwXIrrep := by
        simpa [uniformTable] using hm
      have hm2' : irr2 = constGMIrrep ∨ irr2 = uvwXIrrep := by
        simpa [uniformTable] using hm2
      rcases hm' with rfl | rfl <;> rcases hm2' with rfl | rfl <;>
        first
        | rfl
        | (exfalso; revert hn; with_unfolding_all decide))
    (by
      intro irr hm hfalse
      have hm' : irr = constGMIrrep ∨ irr = uvwXIrrep := by
        simpa [uniformTable] using hm
      rcases hm' with rfl | rfl
      · refine ⟨by simp [constGMIrrep], ?_⟩
        intro p hp
        have hp2 : p = ((1 : ℕ), CharValue.const [(1, 0)]) := by
          simpa [constGMIrrep] using hp
        rw [hp2]
        exact ⟨[(1, 0)], rfl⟩
      · exfalso
        revert hfalse
        with_unfolding_all decide)

/-! ### C6: the terminal character-count assertion of `Irrep.__init__` -/

/-- One `dim x dim` matrix cell of a machine irrep record: its flag line
(`"1"` constant / `"2"` parameterized), its coefficient line, and their
parsed values. -/
structure CellRec where
  flagLine : String
  uvw : Bool
  coeffLine : String
  coeffs : List ℚ

/-- Well-formedness of a cell: the flag line strips to the flag matching
`uvw`, and the coefficient line parses to the nonempty `coeffs`. -/
def cellWFb (c : CellRec) : Bool :=
  decide (pyStrip c.flagLine = (if c.uvw then "2" else "1")) &&
  decide ((pySplit c.coeffLine).mapM parseRat = some c.coeffs) &&
  decide (c.coeffs ≠ [])

/-- One operation slot of a machine irrep record: its `"<isym> <flag>"`
line, its presence flag, and (when present) its `dim*dim` cells in
row-major order. -/
structure SlotRec where
  line : String
  present : Bool
  cells : List CellRec

/-- Well-formedness of the slot list starting at 1-based index `idx`:
each slot line parses to exactly `[idx, flag]`, and present slots carry
`dimN * dimN` well-formed cells. -/
def slotsWFb (dimN : ℕ) : List SlotRec → ℕ → Bool
  | [], _ => true
  | s :: rest, idx =>
    decide ((pySplit s.line).mapM pyInt
      = some [(idx : ℤ), if s.present then 1 else 0]) &&
    (!s.present || (decide (s.cells.length = dimN * dimN) && s.cells.all cellWFb)) &&
    slotsWFb dimN rest (idx + 1)

/-- The line stream of a cell list: flag line then coefficient line for
each cell. -/
def renderCells (cs : List CellRec) : List String :=
  cs.bind (fun c => [c.flagLine, c.coeffLine])

/-- The line stream of one slot: its header line, then its cells if
present. -/
def renderSlot (s : SlotRec) : List String :=
  s.line :: (if s.present then renderCells s.cells else [])

/-- The line stream of a slot list. -/
def renderSlots (ss : List SlotRec) : List String := ss.bind renderSlot

/-- The number of slots the parser retains as characters: present slots
with `2 * isym <= nsym_group`. -/
def countRetained (g : ℤ) : List SlotRec → ℕ → ℕ
  | [], _ => 0
  | s :: rest, isym =>
    (if s.present && decide (2 * (isym : ℤ) ≤ g) then 1 else 0)
      + countRetained g rest (isym + 1)

theorem readCellsRow_step_skip (i n j : ℕ) (hij : i ≠ j) (f cl : String)
    (restL : List String) (abcde : List (List ℚ)) (huv : List Bool) :
    readCellsRow i (n + 1) j (f :: cl :: restL) abcde huv
      = readCellsRow i n (j + 1) restL abcde huv := by
  rw [readCellsRow]
  simp [readline, hij]

theorem readCellsRow_step_diag (i n : ℕ) (f cl : String) (uvw : Bool)
    (coeffs : List ℚ) (restL : List String) (abcde : List (List ℚ))
    (huv : List Bool)
    (hflag : pyStrip f = (if uvw then "2" else "1"))
    (hcoef : (pySplit cl).mapM parseRat = some coeffs) :
    readCellsRow i (n + 1) i (f :: cl :: restL) abcde huv
      = readCellsRow i n (i + 1) restL (abcde ++ [coeffs]) (huv ++ [uvw]) := by
  have hloop : List.mapM.loop parseRat (pySplit cl) [] = some coeffs := hcoef
  rw [readCellsRow]
  cases uvw with
  | false =>
    have hflag1 : pyStrip f = "1" := by simpa using hflag
    simp [readline, hflag1, hloop]
  | true =>
    have hflag2 : pyStrip f = "2" := by simpa using hflag
    simp [readline, hflag2, hloop]

theorem readCellsRow_render (i : ℕ) :
    ∀ (cs : List CellRec) (j : ℕ) (rest : List String)
      (abcde : List (List ℚ)) (huv : List Bool),
      (∀ c ∈ cs, cellWFb c = true) →
      ∃ abcde2 huv2,
        readCellsRow i cs.length j (renderCells cs ++ rest) abcde huv
          = .ok (abcde ++ abcde2, huv ++ huv2, rest) ∧
        ∀ x ∈ abcde2, ∃ c ∈ cs, x = c.coeffs := by
  intro cs
  induction cs with
  | nil =>
    intro j rest abcde huv _
    refine ⟨[], [], by simp [readCellsRow, renderCells], ?_⟩
    intro x hx
    cases hx
  | cons c cst ih =>
    intro j rest abcde huv hwf
    have hc := hwf c (List.mem_cons_self _ _)
    simp only [cellWFb, Bool.and_eq_true, decide_eq_true_eq] at hc
    obtain ⟨⟨hflag, hcoef⟩, hne⟩ := hc
    have hwfr : ∀ c2 ∈ cst, cellWFb c2 = true :=
      fun c2 h2 => hwf c2 (List.mem_cons_of_mem _ h2)
    have hrender : renderCells (c :: cst) ++ rest
        = c.flagLine :: c.coeffLine :: (renderCells cst ++ rest) := by
      simp [renderCells, List.cons_bind]
    rw [List.length_cons, hrender]
    by_cases hij : i = j
    · subst hij
      rw [readCellsRow_step_diag i cst.length c.flagLine c.coeffLine c.uvw
        c.coeffs _ abcde huv hflag hcoef]
      obtain ⟨abcde2, huv2, heq, hmem⟩ :=
        ih (i + 1) rest (abcde ++ [c.coeffs]) (huv ++ [c.uvw]) hwfr
      refine ⟨c.coeffs :: abcde2, c.uvw :: huv2, ?_, ?_⟩
      · rw [heq]
        simp
      · intro x hx
        rcases List.mem_cons.mp hx with rfl | hx2
        · exact ⟨c, List.mem_cons_self _ _, rfl⟩
        · obtain ⟨c2, hc2, hxe⟩ := hmem x hx2
          exact ⟨c2, List.mem_cons_of_mem _ hc2, hxe⟩
    · rw [readCellsRow_step_skip i cst.length j hij]
      obtain ⟨abcde2, huv2, heq, hmem⟩ := ih (j + 1) rest abcde huv hwfr
      refine ⟨abcde2, huv2, heq, ?_⟩
      intro x hx
      obtain ⟨c2, hc2, hxe⟩ := hmem x hx
      exact ⟨c2, List.mem_cons_of_mem _ hc2, hxe⟩

theorem readCellsMat_render (dimN : ℕ) :
    ∀ (left : ℕ) (i : ℕ) (cs : List CellRec) (rest : List String)
      (abcde : List (List ℚ)) (huv : List Bool),
      cs.length = left * dimN →
      (∀ c ∈ cs, cellWFb c = true) →
      ∃ abcde2 huv2,
        readCellsMat dimN left i (renderCells cs ++ rest) abcde huv
          = .ok (abcde ++ abcde2, huv ++ huv2, rest) ∧
        ∀ x ∈ abcde2, ∃ c ∈ cs, x = c.coeffs := by
  intro left
  induction left with
  | zero =>
    intro i cs rest abcde huv hlen _
    have hnil : cs = [] := List.eq_nil_of_length_eq_zero (by simpa using hlen)
    subst hnil
    exact ⟨[], [], by simp [readCellsMat, renderCells], by intro x hx; cases hx⟩
  | succ left ih =>
    intro i cs rest abcde huv hlen hwf
    have hsplit : cs = cs.take dimN ++ cs.drop dimN := (List.take_append_drop _ _).symm
    have hge : dimN ≤ cs.length := by
      rw [hlen, Nat.succ_mul]
      exact Nat.le_add_left _ _
    have hrowlen : (cs.take dimN).length = dimN := by
      rw [List.length_take]
      omega
    have hdroplen : (cs.drop dimN).length = left * dimN := by
      rw [List.length_drop, hlen, Nat.succ_mul, Nat.add_sub_cancel]
    have hbind : renderCells cs
        = renderCells (cs.take dimN) ++ renderCells (cs.drop dimN) := by
      unfold renderCells
      conv_lhs => rw [hsplit]
      exact List.flatMap_append _ _ _
    have hrender : renderCells cs ++ rest
        = renderCells (cs.take dimN) ++ (renderCells (cs.drop dimN) ++ rest) := by
      rw [hbind, List.append_assoc]
    rw [hrender, readCellsMat]
    obtain ⟨a2, h2, heq2, hmem2⟩ :=
      readCellsRow_render i (cs.take dimN) 0 (renderCells (cs.drop dimN) ++ rest)
        abcde huv (fun c hc => hwf c (by rw [hsplit]; exact List.mem_append_left _ hc))
    rw [hrowlen] at heq2
    rw [heq2]
    obtain ⟨a3, h3, heq3, hmem3⟩ :=
      ih (i + 1) (cs.drop dimN) rest (abcde ++ a2) (huv ++ h2) hdroplen
        (fun c hc => hwf c (by rw [hsplit]; exact List.mem_append_right _ hc))
    refine ⟨a2 ++ a3, h2 ++ h3, ?_, ?_⟩
    · show readCellsMat dimN left (i + 1) (renderCells (cs.drop dimN) ++ rest)
        (abcde ++ a2) (huv ++ h2) = _
      rw [heq3]
      simp
    intro x hx
    rcases List.mem_append.mp hx with hx2 | hx3
    · obtain ⟨c, hc, hxe⟩ := hmem2 x hx2
      exact ⟨c, by rw [hsplit]; exact List.mem_append_left _ hc, hxe⟩
    · obtain ⟨c, hc, hxe⟩ := hmem3 x hx3
      exact ⟨c, by rw [hsplit]; exact List.mem_append_right _ hc, hxe⟩

theorem readSlots_step_skip (g dimI : ℤ) (count isym : ℕ) (l : String)
    (restL : List String) (chars : List (ℕ × List (List ℚ))) (huv : Bool)
    (hline : (pySplit l).mapM pyInt = some [(isym : ℤ), 0]) :
    readSlots g dimI (count + 1) isym (l :: restL) chars huv
      = readSlots g dimI count (isym + 1) restL chars huv := by
  have hloop : List.mapM.loop pyInt (pySplit l) [] = some [(isym : ℤ), 0] := hline
  rw [readSlots]
  simp [readline, hloop]

theorem readSlots_step_present (g dimI : ℤ) (count isym : ℕ) (l : String)
    (restL rest2 : List String) (chars : List (ℕ × List (List ℚ))) (huv : Bool)
    (abcde : List (List ℚ)) (huvList : List Bool)
    (hline : (pySplit l).mapM pyInt = some [(isym : ℤ), 1])
    (hmat : readCellsMat dimI.toNat dimI.toNat 0 restL [] []
      = .ok (abcde, huvList, rest2)) :
    readSlots g dimI (count + 1) isym (l :: restL) chars huv
      = readSlots g dimI count (isym + 1) rest2
          (if 2 * (isym : ℤ) ≤ g then chars ++ [(isym, abcde)] else chars)
          (huv || huvList.any id) := by
  have hloop : List.mapM.loop pyInt (pySplit l) [] = some [(isym : ℤ), 1] := hline
  rw [readSlots]
  simp [readline, hloop, hmat]

theorem readSlots_render (g dimI : ℤ) :
    ∀ (ss : List SlotRec) (isym : ℕ) (rest : List String)
      (chars : List (ℕ × List (List ℚ))) (huv : Bool),
      slotsWFb dimI.toNat ss isym = true →
      ∃ chars2 huv2,
        readSlots g dimI ss.length isym (renderSlots ss ++ rest) chars huv
          = .ok (chars ++ chars2, huv2, rest) ∧
        chars2.length = countRetained g ss isym ∧
        ∀ p ∈ chars2, ∀ x ∈ p.2, x ≠ [] := by
  intro ss
  induction ss with
  | nil =>
    intro isym rest chars huv _
    exact ⟨[], huv, by simp [readSlots, renderSlots], by simp [countRetained],
      by intro p hp; cases hp⟩
  | cons s sst ih =>
    intro isym rest chars huv hwf
    rw [slotsWFb] at hwf
    simp only [Bool.and_eq_true, decide_eq_true_eq, Bool.or_eq_true,
      Bool.not_eq_eq_eq_not, Bool.not_true] at hwf
    obtain ⟨⟨hline, hpres⟩, hrest⟩ := hwf
    have hrender : renderSlots (s :: sst) ++ rest
        = s.line :: ((if s.present then renderCells s.cells else [])
            ++ (renderSlots sst ++ rest)) := by
      simp [renderSlots, renderSlot]
    rw [List.length_cons, hrender]
    cases hp : s.present with
    | false =>
      rw [hp, if_neg (by simp)] at hline
      rw [if_neg (by simp : ¬(false = true)), List.nil_append]
      rw [readSlots_step_skip g dimI sst.length isym s.line _ chars huv hline]
      obtain ⟨chars2, huv2, heq, hcnt, hne⟩ := ih (isym + 1) rest chars huv hrest
      refine ⟨chars2, huv2, heq, ?_, hne⟩
      rw [hcnt, countRetained, hp]
      simp
    | true =>
      rw [hp, if_pos rfl] at hline
      rcases hpres with hcontra | ⟨hclen, hcwf⟩
      · rw [hp] at hcontra; cases hcontra
      rw [if_pos (rfl : true = true)]
      obtain ⟨abcde2, huvL, hmat, hmem⟩ :=
        readCellsMat_render dimI.toNat dimI.toNat 0 s.cells
          (renderSlots sst ++ rest) [] [] hclen
          (fun c hc => List.all_eq_true.mp hcwf c hc)
      simp only [List.nil_append] at hmat
      rw [readSlots_step_present g dimI sst.length isym s.line _ _ chars huv
          abcde2 huvL hline hmat]
      by_cases hret : 2 * (isym : ℤ) ≤ g
      · rw [if_pos hret]
        obtain ⟨chars2, huv2, heq, hcnt, hne⟩ :=
          ih (isym + 1) rest (chars ++ [(isym, abcde2)])
            (huv || huvL.any id) hrest
        refine ⟨(isym, abcde2) :: chars2, huv2, ?_, ?_, ?_⟩
        · rw [heq]
          simp
        · rw [List.length_cons, hcnt, countRetained, hp]
          rw [if_pos (by simp [hret])]
          omega
        · intro p hpm x hx
          rcases List.mem_cons.mp hpm with rfl | hpm2
          · obtain ⟨c, hc, hxe⟩ := hmem x hx
            have := List.all_eq_true.mp hcwf c hc
            simp only [cellWFb, Bool.and_eq_true, decide_eq_true_eq] at this
            rw [hxe]
            exact this.2
          · exact hne p hpm2 x hx
      · rw [if_neg hret]
        obtain ⟨chars2, huv2, heq, hcnt, hne⟩ :=
          ih (isym + 1) rest chars (huv || huvL.any id) hrest
        refine ⟨chars2, huv2, heq, ?_, hne⟩
        rw [hcnt, countRetained, hp]
        rw [if_neg (by simp [hret])]
        omega

theorem countRetained_append (g : ℤ) :
    ∀ (a b : List SlotRec) (isym : ℕ),
      countRetained g (a ++ b) isym
        = countRetained g a isym + countRetained g b (isym + a.length) := by
  intro a
  induction a with
  | nil =>
    intro b isym
    simp [countRetained]
  | cons s a ih =>
    intro b isym
    rw [List.cons_append, countRetained, countRetained, ih]
    simp only [List.length_cons]
    have harg : isym + (a.length + 1) = isym + 1 + a.length := by omega
    rw [harg]
    omega

theorem countRetained_low (gn : ℕ) :
    ∀ (a : List SlotRec) (isym : ℕ),
      isym + a.length ≤ gn + 1 →
      countRetained (2 * (gn : ℤ)) a isym
        = a.countP (fun s => s.present) := by
  intro a
  induction a with
  | nil =>
    intro isym _
    simp [countRetained]
  | cons s a ih =>
    intro isym hle
    rw [countRetained, List.countP_cons,
      ih (isym + 1) (by simp at hle ⊢; omega)]
    have hcond : (2 * (isym : ℤ) ≤ 2 * (gn : ℕ)) := by
      simp only [List.length_cons] at hle
      have : isym ≤ gn := by omega
      push_cast
      omega
    rw [decide_eq_true hcond]
    cases s.present <;> simp <;> omega

theorem countRetained_high (gn : ℕ) :
    ∀ (b : List SlotRec) (isym : ℕ), gn + 1 ≤ isym →
      countRetained (2 * (gn : ℤ)) b isym = 0 := by
  intro b
  induction b with
  | nil =>
    intro isym _
    simp [countRetained]
  | cons s b ih =>
    intro isym hge
    rw [countRetained, ih (isym + 1) (by omega)]
    have hcond : ¬(2 * (isym : ℤ) ≤ 2 * (gn : ℕ)) := by
      push_cast
      omega
    simp [hcond]

theorem countRetained_total (gn : ℕ) (ss : List SlotRec)
    (hlen : ss.length = 2 * gn) :
    countRetained (2 * (gn : ℤ)) ss 1
      = (ss.take gn).countP (fun s => s.present) := by
  have hsplit : ss = ss.take gn ++ ss.drop gn := (List.take_append_drop _ _).symm
  have htake : (ss.take gn).length = gn := by
    rw [List.length_take]
    omega
  conv_lhs => rw [hsplit]
  rw [countRetained_append, htake,
    countRetained_low gn (ss.take gn) 1 (by omega),
    countRetained_high gn (ss.drop gn) (1 + gn) (by omega)]
  omega

theorem reduceTerms_ok_of_nonempty :
    ∀ (abcde : List (List ℚ)), (∀ x ∈ abcde, x ≠ []) →
      ∃ ts, reduceTerms abcde = .ok ts := by
  intro abcde
  induction abcde with
  | nil =>
    intro _
    exact ⟨[], rfl⟩
  | cons aaa rest ih =>
    intro hne
    obtain ⟨ts, hts⟩ := ih (fun x hx => hne x (List.mem_cons_of_mem _ hx))
    cases aaa with
    | nil => exact absurd rfl (hne [] (List.mem_cons_self _ _))
    | cons c r =>
      refine ⟨(c, r.headD 0) :: ts, ?_⟩
      rw [reduceTerms, List.mapM_cons]
      rw [reduceTerms] at hts
      rw [hts]
      rfl

theorem mapM_reduceChar_ok :
    ∀ (chars : List (ℕ × List (List ℚ))),
      (∀ p ∈ chars, ∀ x ∈ p.2, x ≠ []) →
      ∃ out, chars.mapM reduceChar = .ok out ∧ out.length = chars.length := by
  intro chars
  induction chars with
  | nil =>
    intro _
    exact ⟨[], rfl, rfl⟩
  | cons p rest ih =>
    intro hne
    obtain ⟨out, hout, hlen⟩ := ih (fun q hq => hne q (List.mem_cons_of_mem _ hq))
    obtain ⟨ts, hts⟩ := reduceTerms_ok_of_nonempty p.2
      (fun x hx => hne p (List.mem_cons_self _ _) x hx)
    have hchar : reduceChar p = .ok (p.1, CharValue.const ts) := by
      rw [reduceChar, hts]
    refine ⟨(p.1, CharValue.const ts) :: out, ?_, by simp [hlen]⟩
    rw [List.mapM_cons, hchar, hout]
    rfl

/-- **C6**: for every machine irrep record satisfying the format's
preconditions — a header line whose operation count equals the number of
present slots, a slot list of length `nsym_group = 2*gn` whose slot lines
are well-formed with `dim x dim` parseable cell blocks on present slots,
and the second half of the presence pattern mirroring the first —
`Irrep.__init__` succeeds (the terminal
`assert len(self.characters) == self.nsym` never fires) and the parsed
irrep satisfies `len(characters) = nsym`. -/
theorem c6_machine_assert_holds (gn : ℕ) (l : String) (hdr : MIrrepHeader)
    (ss : List SlotRec) (rest : List String)
    (hhdr : parseMIrrepHeader l = .ok hdr)
    (hlen : ss.length = 2 * gn)
    (hwf : slotsWFb hdr.dim.toNat ss 1 = true)
    (hsym : (ss.take gn).map (fun s => s.present)
      = (ss.drop gn).map (fun s => s.present))
    (hcnt : hdr.cnt = (ss.countP (fun s => s.present) : ℤ)) :
    ∃ irr, parseIrrepMachine (2 * (gn : ℤ)) (l :: (renderSlots ss ++ rest))
        = .ok (irr, rest)
      ∧ (irr.characters.length : ℤ) = irr.nsym := by
  have hcount : (2 * (gn : ℤ)).toNat = ss.length := by
    rw [hlen]
    omega
  obtain ⟨chars2, huv2, hslots, hcntR, hne⟩ :=
    readSlots_render (2 * (gn : ℤ)) hdr.dim ss 1 rest [] false hwf
  simp only [List.nil_append] at hslots
  have hcp : (ss.take gn).countP (fun s => s.present)
      = (ss.drop gn).countP (fun s => s.present) := by
    have h := congrArg (List.countP (fun b => b)) hsym
    rwa [List.countP_map, List.countP_map] at h
  have htot : ss.countP (fun s => s.present)
      = 2 * (ss.take gn).countP (fun s => s.present) := by
    conv_lhs => rw [← List.take_append_drop gn ss]
    rw [List.countP_append, ← hcp]
    omega
  have hchars2len : chars2.length = (ss.take gn).countP (fun s => s.present) := by
    rw [hcntR, countRetained_total gn ss hlen]
  have htdiv : Int.tdiv hdr.cnt 2
      = ((ss.take gn).countP (fun s => s.present) : ℤ) := by
    rw [hcnt, htot]
    push_cast
    exact Int.mul_tdiv_cancel_left _ (by norm_num)
  cases huv2 with
  | true =>
    have hlenEq : ((chars2.map (fun p => (p.1, CharValue.func p.2))).length : ℤ)
        = Int.tdiv hdr.cnt 2 := by
      rw [List.length_map, hchars2len, htdiv]
    refine ⟨{ k := hdr.ks, kpname := hdr.kpname, name := hdr.name,
              dim := hdr.dim, nsym := Int.tdiv hdr.cnt 2,
              reality := .inl hdr.reality,
              characters := chars2.map (fun p => (p.1, CharValue.func p.2)),
              hasuvw := some true, has_rkmk := hdr.has_rkmk }, ?_, hlenEq⟩
    simp only [parseIrrepMachine, readline, hhdr, hcount, hslots, if_true]
    rw [if_pos hlenEq]
  | false =>
    obtain ⟨out, hout, houtlen⟩ := mapM_reduceChar_ok chars2 hne
    have hlenEq : ((out.length : ℕ) : ℤ) = Int.tdiv hdr.cnt 2 := by
      rw [houtlen, hchars2len, htdiv]
    refine ⟨{ k := hdr.ks, kpname := hdr.kpname, name := hdr.name,
              dim := hdr.dim, nsym := Int.tdiv hdr.cnt 2,
              reality := .inl hdr.reality, characters := out,
              hasuvw := some false, has_rkmk := hdr.has_rkmk }, ?_, hlenEq⟩
    simp only [parseIrrepMachine, readline, hhdr, hcount, hslots,
      Bool.false_eq_true, if_false, hout]
    rw [if_pos hlenEq]

/-- Slot records rendering to the operation slots of a dimension-1,
`nsym_group = 2` machine irrep record with both slots present. -/
def c6Slots : List SlotRec :=
  [{ line := "1 1", present := true,
     cells := [{ flagLine := "1", uvw := false,
                 coeffLine := "1.0 0.0 0.0 0.0 0.0",
                 coeffs := [1, 0, 0, 0, 0] }] },
   { line := "2 1", present := true,
     cells := [{ flagLine := "1", uvw := false,
                 coeffLine := "1.0 1.0 0.0 0.0 0.0",
                 coeffs := [1, 1, 0, 0, 0] }] }]

/-- Parsed header of the record used in the C6 witness. -/
def c6Hdr : MIrrepHeader :=
  { ks := [0, 0, 0], has_rkmk := some true, name := "GM1", kpname := "GM",
    dim := 1, cnt := 2, reality := 1 }

/-- Witness for C6 at a concrete well-formed machine irrep record. -/
theorem c6_witness :
    ∃ irr, parseIrrepMachine (2 * ((1 : ℕ) : ℤ))
        ("0.0 0.0 0.0 1 GM1 1 2 GM 1" :: (renderSlots c6Slots ++ []))
        = .ok (irr, [])
      ∧ (irr.characters.length : ℤ) = irr.nsym :=
  c6_machine_assert_holds 1 "0.0 0.0 0.0 1 GM1 1 2 GM 1" c6Hdr c6Slots []
    (by with_unfolding_all decide)
    (by with_unfolding_all decide)
    (by with_unfolding_all decide)
    (by with_unfolding_all decide)
    (by with_unfolding_all decide)
